import Mathlib

/-!
Verification development for the whisper-to-talk transcription server.

The definitions below are a shallow embedding of the repository's Python
sources:

* `src/transcription_server.py` — `TranscriptionServer.clean_transcription_text`
  (lines 57-96), `TranscriptionServer.transcribe_file` (lines 98-133),
  `TranscriptionServer.handle_client` / `start_server` (lines 135-187);
* `src/transcription_server_standalone.py` — the standalone server, whose
  `clean_transcription_text` (lines 123-161) and `transcribe_file`
  (lines 163-205) bodies are character-for-character identical to the ones
  above, so a single embedding covers both files;
* `src/waybar_status.py` — `TranscriberStatus.get_current_status`
  (lines 73-100).

Python strings are modelled as `List Char`.  The source operates on Unicode
text; we model the ASCII fragment of Python's whitespace / digit / lowercase
character classes, which agrees with CPython on every ASCII character (all
concrete inputs used below are ASCII).
-/

set_option maxRecDepth 20000
set_option maxHeartbeats 2000000

namespace WhisperToTalk

/-- ASCII fragment of Python's `str.isspace` / regex `\s` class
(`' '`, `'\t'`, `'\n'`, `'\r'`, `'\x0b'`, `'\x0c'`). -/
def pyIsSpace (c : Char) : Bool :=
  c = ' ' || c = '\t' || c = '\n' || c = '\r' || c = '\x0b' || c = '\x0c'

/-- ASCII fragment of Python's regex `\d` class. -/
def pyIsDigit (c : Char) : Bool :=
  '0' ≤ c && c ≤ '9'

/-- ASCII fragment of Python's `str.lower` on a single character. -/
def lowerChar : Char → Char
  | 'A' => 'a' | 'B' => 'b' | 'C' => 'c' | 'D' => 'd' | 'E' => 'e'
  | 'F' => 'f' | 'G' => 'g' | 'H' => 'h' | 'I' => 'i' | 'J' => 'j'
  | 'K' => 'k' | 'L' => 'l' | 'M' => 'm' | 'N' => 'n' | 'O' => 'o'
  | 'P' => 'p' | 'Q' => 'q' | 'R' => 'r' | 'S' => 's' | 'T' => 't'
  | 'U' => 'u' | 'V' => 'v' | 'W' => 'w' | 'X' => 'x' | 'Y' => 'y'
  | 'Z' => 'z'
  | c => c

/-- Python `str.lower()`. -/
def lowerL (s : List Char) : List Char := s.map lowerChar

/-- Python `str.strip()` (no argument): drop whitespace from both ends. -/
def pyStrip (s : List Char) : List Char :=
  ((s.dropWhile pyIsSpace).reverse.dropWhile pyIsSpace).reverse

/-- Accumulator worker for Python `str.split()` (no argument): split on runs
of whitespace, discarding empty pieces.  `acc` holds the characters of the
word currently being read, in reverse order. -/
def splitWsAcc : List Char → List Char → List (List Char)
  | acc, [] => if acc = [] then [] else [acc.reverse]
  | acc, c :: cs =>
    if pyIsSpace c then
      if acc = [] then splitWsAcc [] cs else acc.reverse :: splitWsAcc [] cs
    else splitWsAcc (c :: acc) cs

/-- Python `text.split()` with no argument. -/
def splitWs (s : List Char) : List (List Char) := splitWsAcc [] s

/-- Word-count worker: the number of maximal non-whitespace runs in the
text, carrying a flag telling whether we are currently inside a word.
`wcAux false s` equals `(splitWs s).length`; it is the induction-friendly
form used to reason about the `len(words) > 20` gate. -/
def wcAux : Bool → List Char → Nat
  | _, [] => 0
  | inWord, c :: cs =>
    if pyIsSpace c then wcAux false cs
    else (if inWord then 0 else 1) + wcAux true cs

/-- Python `' '.join(words)`. -/
def joinSp : List (List Char) → List Char
  | [] => []
  | [w] => w
  | w :: ws => w ++ ' ' :: joinSp ws

/-- One repetition unit of the hallucination regex `(\d+,\s*){10,}`
(transcription_server.py line 64): one or more digits, a comma, then any
run of whitespace.  Returns the remaining text on success.  Because the
unit's `\d+` must be followed by `','` and nothing follows the whole group,
the regex engine's greedy matching of this pattern is deterministic and is
captured exactly by this function. -/
def matchUnit (cs : List Char) : Option (List Char) :=
  let ds := cs.takeWhile pyIsDigit
  if ds = [] then none
  else
    match cs.drop ds.length with
    | ',' :: rest => some (rest.dropWhile pyIsSpace)
    | _ => none

/-- Count the maximal run of consecutive regex units starting here, returning
the count and the text after the run.  `fuel` bounds the recursion; each unit
consumes at least two characters, so `fuel = cs.length` is always enough. -/
def chainRest : Nat → List Char → Nat × List Char
  | 0, cs => (0, cs)
  | fuel + 1, cs =>
    match matchUnit cs with
    | some rest => ((chainRest fuel rest).1 + 1, (chainRest fuel rest).2)
    | none => (0, cs)

/-- Python `re.sub(r'(\d+,\s*){10,}', '', text)` (transcription_server.py
line 64): scanning left to right, delete every maximal run of at least ten
units.  `fuel = cs.length + 1` suffices since every step consumes at least
one character. -/
def subNumRuns : Nat → List Char → List Char
  | 0, cs => cs
  | fuel + 1, cs =>
    match cs with
    | [] => []
    | c :: rest =>
      if (chainRest (c :: rest).length (c :: rest)).1 ≥ 10 then
        subNumRuns fuel (chainRest (c :: rest).length (c :: rest)).2
      else c :: subNumRuns fuel rest

/-- The `while` loop of transcription_server.py lines 75-81: the number of
further consecutive case-insensitive repetitions of `p` (a joined phrase of
`L` words) found at word position `pos`.  The Python variable `repetitions`
equals `1 + repsAfter fuel p L ws (i + L)`. -/
def repsAfter : Nat → List Char → Nat → List (List Char) → Nat → Nat
  | 0, _, _, _, _ => 0
  | fuel + 1, p, L, ws, pos =>
    if pos + L ≤ ws.length ∧ lowerL p = lowerL (joinSp ((ws.drop pos).take L)) then
      1 + repsAfter fuel p L ws (pos + L)
    else 0

/-- The inner `for i in range(len(words) - phrase_len * 3)` loop of
transcription_server.py lines 70-86 for one fixed phrase length `L`:
scan positions `i < k`; at the first position whose phrase is longer than
10 characters (after strip) and repeats more than 3 consecutive times,
splice out the repeats beyond the first and stop (the Python `break`).
`fuel = ws.length + 1` suffices since `i` increases each step and
`k ≤ ws.length`. -/
def scanAux : Nat → Nat → List (List Char) → Nat → Nat → List (List Char)
  | 0, _, ws, _, _ => ws
  | fuel + 1, L, ws, k, i =>
    if i < k then
      if joinSp ((ws.drop i).take L) ≠ [] ∧
          10 < (pyStrip (joinSp ((ws.drop i).take L))).length then
        if 3 < 1 + repsAfter (ws.length + 1) (joinSp ((ws.drop i).take L)) L ws (i + L) then
          ws.take (i + L) ++
            ws.drop (i + (1 + repsAfter (ws.length + 1) (joinSp ((ws.drop i).take L)) L ws (i + L)) * L)
        else scanAux fuel L ws k (i + 1)
      else scanAux fuel L ws k (i + 1)
    else ws

/-- One iteration of the outer `for phrase_len in range(3, 8)` loop
(transcription_server.py line 69): the bound `len(words) - phrase_len * 3`
is computed from the current word list (Python `range` of a negative number
is empty, matching truncated `Nat` subtraction). -/
def collapseOnce (L : Nat) (ws : List (List Char)) : List (List Char) :=
  scanAux (ws.length + 1) L ws (ws.length - 3 * L) 0

/-- The full outer loop over phrase lengths 3,4,5,6,7.  After the inner
`break`, Python proceeds with the next `phrase_len` on the spliced list. -/
def collapseAll (ws : List (List Char)) : List (List Char) :=
  collapseOnce 7 (collapseOnce 6 (collapseOnce 5 (collapseOnce 4 (collapseOnce 3 ws))))

/-- Word-list stage of the sanitizer (transcription_server.py lines 67-88):
split the regex-stripped text and, only when there are more than 20 words,
run the repetition collapse. -/
def cleanWordsStage (cs : List Char) : List (List Char) :=
  let ws := splitWs (subNumRuns (cs.length + 1) cs)
  if ws.length > 20 then collapseAll ws else ws

/-- The cleaned text just before the length cap: `text = ' '.join(words)`
(transcription_server.py line 88). -/
def cleanedPre (cs : List Char) : List Char := joinSp (cleanWordsStage cs)

/-- The ellipsis marker appended on truncation ("..."). -/
def dots : List Char := ['.', '.', '.']

/-- Worker for Python `text.rsplit(' ', 1)[0]`: scan the reversed text for
the first `' '` and return what follows it (still reversed). -/
def cutAfterSpaceRev : List Char → Option (List Char)
  | [] => none
  | c :: cs => if c = ' ' then some cs else cutAfterSpaceRev cs

/-- Python `text.rsplit(' ', 1)[0]`: the text before its last space
character, or the whole text if it has no space. -/
def beforeLastSpace (s : List Char) : List Char :=
  match cutAfterSpaceRev s.reverse with
  | some r => r.reverse
  | none => s

/-- The length cap of transcription_server.py lines 90-93:
`if len(text) > 1000: text = text[:1000].rsplit(' ', 1)[0] + "..."`. -/
def truncateStep (t : List Char) : List Char :=
  if t.length > 1000 then beforeLastSpace (t.take 1000) ++ dots else t

/-- `TranscriptionServer.clean_transcription_text`
(transcription_server.py lines 57-96), identical to
`StandaloneTranscriptionServer.clean_transcription_text`
(transcription_server_standalone.py lines 123-161): early-return `""` on
empty/whitespace input, strip numeric hallucination runs, collapse phrase
repetitions when more than 20 words, rejoin with single spaces, cap the
length, and strip the result. -/
def clean_transcription_text (cs : List Char) : List Char :=
  if pyStrip cs = [] then []
  else pyStrip (truncateStep (cleanedPre cs))

/-! ### Transcription pipeline (`transcribe_file`) -/

/-- The filesystem facts `transcribe_file` consults: `os.path.exists`
(transcription_server.py line 100) and `os.path.getsize` (line 103). -/
structure FS where
  pathExists : String → Bool
  fileSize : String → Nat

/-- The response dictionary of `transcribe_file`: either
`\x7b"text": ..., "duration": ...\x7d` or `\x7b"error": ...\x7d`
(never both). -/
inductive Resp
  | result (text : List Char) (duration : Nat)
  | error (msg : String)
deriving DecidableEq

/-- `TranscriptionServer.transcribe_file` (transcription_server.py lines
98-133) = `StandaloneTranscriptionServer.transcribe_file`
(transcription_server_standalone.py lines 163-205): check existence, then
the small-file guard (`file_size < 1000`), and only then call the model.
The model call `self.whisper_inf.transcribe(...)` is external; its outcome
is a parameter `modelResult` (segment texts, or a raised exception message),
and the wall-clock duration of the call is the parameter `elapsed`.  The
second component of the returned pair records whether the model's
transcribe operation was invoked. -/
def transcribe_file (fs : FS) (modelResult : Except String (List (List Char)))
    (elapsed : Nat) (audio_file : String) : Resp × Bool :=
  if fs.pathExists audio_file = false then
    (Resp.error ("Audio file not found: " ++ audio_file), false)
  else if fs.fileSize audio_file < 1000 then
    (Resp.result [] 0, false)
  else
    match modelResult with
    | .ok segments =>
      (Resp.result (clean_transcription_text (joinSp (segments.map pyStrip))) elapsed, true)
    | .error e => (Resp.error e, true)

/-! ### Waybar status reader (`get_current_status`) -/

/-- One parsed status record from `/tmp/whisper_status.json`
(waybar_status.py lines 86-91); the `.get` defaults (`state` ← `"idle"`,
`timestamp` ← `0`) are applied by the reader while parsing. -/
structure StatusRecord where
  state : String
  timestamp : Int

/-- `TranscriberStatus.get_current_status` (waybar_status.py lines 73-100).
Inputs: whether the server-liveness probe passed (lines 76-77), whether the
recording marker file exists (lines 80-81), the parsed status record if the
status file exists and parses (`none` on absence or parse error, lines
84-97), and the current `time.time()` (modelled at integer precision). -/
def get_current_status (serverRunning recording : Bool)
    (statusFile : Option StatusRecord) (now : Int) : String :=
  if serverRunning = false then "offline"
  else if recording then "recording"
  else
    match statusFile with
    | some r => if now - r.timestamp > 5 then "idle" else r.state
    | none => "idle"

/-! ### Concurrency model of the request handlers

`start_server` (transcription_server.py lines 178-184) accepts connections
in a loop and starts a fresh thread running `handle_client` for each one.
Neither `handle_client` nor `transcribe_file` acquires any lock — the
`threading` module is used only to spawn the threads — so a handler
thread's progress never depends on the state of any other thread.  We model
each handler as a small program counter and let the threads interleave
freely, which is exactly the synchronization structure of the source. -/

/-- The request actions relevant to the concurrency claim
(handle_client, lines 141-146). -/
inductive ReqAction
  | transcribe
  | ping
deriving DecidableEq

/-- One handler thread: its request action and its program counter.
For `transcribe` (on an existing, ≥1000-byte file) the counters are:
0 = recv/parse (lines 138-139), 1 = existence check done (line 100),
2 = size check done (line 103), 3 = executing inside
`whisper_inf.transcribe` (line 113), 4 = model call returned,
5 = response sent (line 150).  For `ping` they are: 0 = recv/parse,
1 = `\x7b"status": "ready"\x7d` sent (lines 145-146). -/
structure HThread where
  act : ReqAction
  pc : Nat
deriving DecidableEq

/-- Number of steps in each handler's straight-line code. -/
def pcLimit : ReqAction → Nat
  | .transcribe => 5
  | .ping => 1

/-- A thread is currently inside the model's transcribe call. -/
def inModelB (t : HThread) : Bool :=
  t.act == ReqAction.transcribe && t.pc == 3

/-- Interleaving step: any not-yet-finished thread advances one program
point.  There is no side condition involving the other threads because the
source contains no lock around the model call. -/
inductive SysStep : List HThread → List HThread → Prop
  | advance (s : List HThread) (i : Nat) (t : HThread)
      (hget : s[i]? = some t) (hpc : t.pc < pcLimit t.act) :
      SysStep s (s.set i ⟨t.act, t.pc + 1⟩)

/-- Reachability in the interleaving semantics. -/
def Reaches : List HThread → List HThread → Prop :=
  Relation.ReflTransGen SysStep

/-- The serialization property claimed by the spec: in every reachable
state at most one handler thread is inside the model call. -/
def ModelCallsSerialized (init : List HThread) : Prop :=
  ∀ s, Reaches init s → s.countP inModelB ≤ 1

/-! ### Concrete inputs used by counterexamples and witnesses -/

/-- A 998-character word, a space, and a 10-character word (1009 chars). -/
def csC2 : List Char := List.replicate 998 'a' ++ ' ' :: List.replicate 10 'b'

/-- The four words of the 4-word phrase used for C3 (joined: 22 chars). -/
def phrC3 : List (List Char) := ["alpha".toList, "beta".toList, "gamma".toList, "delta".toList]

/-- The phrase of `phrC3` repeated 5 consecutive times: exactly 20 words. -/
def csC3 : List Char := joinSp (phrC3 ++ phrC3 ++ phrC3 ++ phrC3 ++ phrC3)

/-- A 6-word phrase (19 chars) that contains the word `"ab"` repeated
exactly 5 consecutive times. -/
def pC5 : List Char := "ab ab ab ab ab zzzz".toList

/-- `pC5` repeated 4 consecutive times (24 words). -/
def csC5 : List Char :=
  "ab ab ab ab ab zzzz ab ab ab ab ab zzzz ab ab ab ab ab zzzz ab ab ab ab ab zzzz".toList

/-- Twenty-one copies of the one-character word `"a"`. -/
def csC5w : List Char := joinSp (List.replicate 21 ['a'])

/-- Ten comma-separated numeric tokens (nine commas, no trailing comma). -/
def csC6 : List Char := "1,2,3,4,5,6,7,8,9,10".toList

/-- A run of comma-terminated numeric tokens: each token of `ts` followed by
a comma.  This is the shape the hallucination regex actually deletes. -/
def unitsCat (ts : List (List Char)) : List Char :=
  (ts.map (fun t => t ++ [','])).flatten

/-- A single 1012-character word. -/
def csC7 : List Char := List.replicate 1012 'a'

/-- A 600-character word, a space, and another 600-character word. -/
def csC7w : List Char := List.replicate 600 'a' ++ ' ' :: List.replicate 600 'b'

/-! ## Helper lemmas for the concurrency model -/

/-- Two concurrent transcribe handlers can both advance into the model
call: the state with both threads at pc 3 is reachable, because no step of
either thread is guarded by anything the other thread does. -/
theorem reaches_overlap2 :
    Reaches [⟨ReqAction.transcribe, 0⟩, ⟨ReqAction.transcribe, 0⟩]
      [⟨ReqAction.transcribe, 3⟩, ⟨ReqAction.transcribe, 3⟩] := by
  have h1 : SysStep [⟨ReqAction.transcribe, 0⟩, ⟨ReqAction.transcribe, 0⟩]
      [⟨ReqAction.transcribe, 1⟩, ⟨ReqAction.transcribe, 0⟩] :=
    SysStep.advance _ 0 ⟨ReqAction.transcribe, 0⟩ rfl (by decide)
  have h2 : SysStep [⟨ReqAction.transcribe, 1⟩, ⟨ReqAction.transcribe, 0⟩]
      [⟨ReqAction.transcribe, 2⟩, ⟨ReqAction.transcribe, 0⟩] :=
    SysStep.advance _ 0 ⟨ReqAction.transcribe, 1⟩ rfl (by decide)
  have h3 : SysStep [⟨ReqAction.transcribe, 2⟩, ⟨ReqAction.transcribe, 0⟩]
      [⟨ReqAction.transcribe, 3⟩, ⟨ReqAction.transcribe, 0⟩] :=
    SysStep.advance _ 0 ⟨ReqAction.transcribe, 2⟩ rfl (by decide)
  have h4 : SysStep [⟨ReqAction.transcribe, 3⟩, ⟨ReqAction.transcribe, 0⟩]
      [⟨ReqAction.transcribe, 3⟩, ⟨ReqAction.transcribe, 1⟩] :=
    SysStep.advance _ 1 ⟨ReqAction.transcribe, 0⟩ rfl (by decide)
  have h5 : SysStep [⟨ReqAction.transcribe, 3⟩, ⟨ReqAction.transcribe, 1⟩]
      [⟨ReqAction.transcribe, 3⟩, ⟨ReqAction.transcribe, 2⟩] :=
    SysStep.advance _ 1 ⟨ReqAction.transcribe, 1⟩ rfl (by decide)
  have h6 : SysStep [⟨ReqAction.transcribe, 3⟩, ⟨ReqAction.transcribe, 2⟩]
      [⟨ReqAction.transcribe, 3⟩, ⟨ReqAction.transcribe, 3⟩] :=
    SysStep.advance _ 1 ⟨ReqAction.transcribe, 2⟩ rfl (by decide)
  exact .head h1 (.head h2 (.head h3 (.head h4 (.head h5 (.head h6 .refl)))))

/-- A ping handler can run to completion while a transcribe handler is
still inside the model call. -/
theorem reaches_ping_during_transcribe :
    Reaches [⟨ReqAction.transcribe, 0⟩, ⟨ReqAction.ping, 0⟩]
      [⟨ReqAction.transcribe, 3⟩, ⟨ReqAction.ping, 1⟩] := by
  have h1 : SysStep [⟨ReqAction.transcribe, 0⟩, ⟨ReqAction.ping, 0⟩]
      [⟨ReqAction.transcribe, 1⟩, ⟨ReqAction.ping, 0⟩] :=
    SysStep.advance _ 0 ⟨ReqAction.transcribe, 0⟩ rfl (by decide)
  have h2 : SysStep [⟨ReqAction.transcribe, 1⟩, ⟨ReqAction.ping, 0⟩]
      [⟨ReqAction.transcribe, 2⟩, ⟨ReqAction.ping, 0⟩] :=
    SysStep.advance _ 0 ⟨ReqAction.transcribe, 1⟩ rfl (by decide)
  have h3 : SysStep [⟨ReqAction.transcribe, 2⟩, ⟨ReqAction.ping, 0⟩]
      [⟨ReqAction.transcribe, 3⟩, ⟨ReqAction.ping, 0⟩] :=
    SysStep.advance _ 0 ⟨ReqAction.transcribe, 2⟩ rfl (by decide)
  have h4 : SysStep [⟨ReqAction.transcribe, 3⟩, ⟨ReqAction.ping, 0⟩]
      [⟨ReqAction.transcribe, 3⟩, ⟨ReqAction.ping, 1⟩] :=
    SysStep.advance _ 1 ⟨ReqAction.ping, 0⟩ rfl (by decide)
  exact .head h1 (.head h2 (.head h3 (.head h4 .refl)))

/-! ## Claim C1 -/

/-- C1 counterexample: model invocation is NOT mutually exclusive across
concurrent clients.  Starting from two concurrent transcribe handlers, the
state in which both threads are simultaneously inside the model's
transcribe call is reachable, so the claimed serialization property fails. -/
theorem C1_counterexample_no_mutual_exclusion :
    ¬ ModelCallsSerialized [⟨ReqAction.transcribe, 0⟩, ⟨ReqAction.transcribe, 0⟩] := by
  intro h
  exact absurd (h _ reaches_overlap2) (by decide)

/-- C1 amended: the handler threads share the model with no lock, so two
concurrent transcribe requests CAN overlap inside the model's transcribe
operation (a reachable state has both threads in the call at once), while a
ping request can indeed run to completion during an in-flight transcribe. -/
theorem C1_amended_unserialized_model_access :
    (Reaches [⟨ReqAction.transcribe, 0⟩, ⟨ReqAction.transcribe, 0⟩]
        [⟨ReqAction.transcribe, 3⟩, ⟨ReqAction.transcribe, 3⟩] ∧
      ([⟨ReqAction.transcribe, 3⟩, ⟨ReqAction.transcribe, 3⟩] : List HThread).countP inModelB = 2) ∧
    (Reaches [⟨ReqAction.transcribe, 0⟩, ⟨ReqAction.ping, 0⟩]
        [⟨ReqAction.transcribe, 3⟩, ⟨ReqAction.ping, 1⟩] ∧
      inModelB ⟨ReqAction.transcribe, 3⟩ = true ∧ pcLimit ReqAction.ping = 1) :=
  ⟨⟨reaches_overlap2, by decide⟩, ⟨reaches_ping_during_transcribe, by decide, rfl⟩⟩

/-! ## Claim C8 -/

/-- C8: for every existing audio file whose size is below 1000 bytes,
`transcribe_file` returns text `""` and duration `0` without invoking the
model's transcribe operation. -/
theorem C8_small_file_short_circuit (fs : FS)
    (mr : Except String (List (List Char))) (el : Nat) (f : String)
    (h1 : fs.pathExists f = true) (h2 : fs.fileSize f < 1000) :
    transcribe_file fs mr el f = (Resp.result [] 0, false) := by
  simp [transcribe_file, h1, h2]

/-- C8 witness: a concrete 0-byte existing file. -/
theorem C8_small_file_short_circuit_witness :
    transcribe_file ⟨fun _ => true, fun _ => 0⟩ (Except.ok []) 7 "/tmp/tiny.wav"
      = (Resp.result [] 0, false) :=
  C8_small_file_short_circuit _ _ _ _ rfl (by decide)

/-! ## Claim C9 -/

/-- C9: a transcribe request for a non-existent path yields exactly the
error response `"Audio file not found: " ++ path`, never a success shape,
and the model is not invoked. -/
theorem C9_missing_file_error (fs : FS)
    (mr : Except String (List (List Char))) (el : Nat) (f : String)
    (h : fs.pathExists f = false) :
    transcribe_file fs mr el f = (Resp.error ("Audio file not found: " ++ f), false) ∧
      ∀ t d b, transcribe_file fs mr el f ≠ (Resp.result t d, b) := by
  have e : transcribe_file fs mr el f
      = (Resp.error ("Audio file not found: " ++ f), false) := by
    simp [transcribe_file, h]
  exact ⟨e, by intro t d b hc; rw [e] at hc; simp at hc⟩

/-- C9 witness: the spec's own example path. -/
theorem C9_missing_file_error_witness :
    transcribe_file ⟨fun _ => false, fun _ => 0⟩ (Except.ok []) 0 "/tmp/missing.wav"
      = (Resp.error "Audio file not found: /tmp/missing.wav", false) :=
  (C9_missing_file_error _ _ _ _ rfl).1

/-! ## Claim C10 -/

/-- C10: with the server alive and no recording marker, a status record
whose timestamp is more than 5 seconds older than the current time is
reported as idle regardless of its stored state. -/
theorem C10_stale_status_reads_idle (r : StatusRecord) (now : Int)
    (h : now - r.timestamp > 5) :
    get_current_status true false (some r) now = "idle" := by
  simp [get_current_status, h]

/-- C10 witness: a stuck `"processing"` record 6 seconds old reads idle. -/
theorem C10_stale_status_reads_idle_witness :
    get_current_status true false (some ⟨"processing", 10⟩) 16 = "idle" :=
  C10_stale_status_reads_idle ⟨"processing", 10⟩ 16 (by decide)

/-! ## String-operation lemmas -/

theorem dropWhile_cons_neg {p : Char → Bool} {c : Char} {cs : List Char}
    (h : p c = false) : List.dropWhile p (c :: cs) = c :: cs := by
  simp [List.dropWhile, h]

theorem dropWhile_nil_all {p : Char → Bool} :
    ∀ {l : List Char}, List.dropWhile p l = [] → ∀ c ∈ l, p c = true := by
  intro l
  induction l with
  | nil => intro _ c hc; cases hc
  | cons x xs ih =>
    intro h c hc
    by_cases hx : p x = true
    · rw [List.dropWhile_cons_of_pos hx] at h
      rcases List.mem_cons.1 hc with rfl | hmem
      · exact hx
      · exact ih h c hmem
    · rw [List.dropWhile_cons_of_neg (by simpa using hx)] at h
      cases h

theorem pyStrip_nil_of_all_space {s : List Char}
    (h : ∀ c ∈ s, pyIsSpace c = true) : pyStrip s = [] := by
  have h1 : s.dropWhile pyIsSpace = [] := by
    rw [List.dropWhile_eq_nil_iff]
    intro x hx
    exact h x hx
  simp [pyStrip, h1]

theorem all_space_of_pyStrip_nil {s : List Char}
    (h : pyStrip s = []) : ∀ c ∈ s, pyIsSpace c = true := by
  unfold pyStrip at h
  have h2 : (s.dropWhile pyIsSpace).reverse.dropWhile pyIsSpace = [] := by
    rcases e : (s.dropWhile pyIsSpace).reverse.dropWhile pyIsSpace with _ | ⟨c, t⟩
    · rfl
    · rw [e] at h; simp at h
  have hrev : ∀ c ∈ (s.dropWhile pyIsSpace).reverse, pyIsSpace c = true :=
    dropWhile_nil_all h2
  have hdrop : ∀ c ∈ s.dropWhile pyIsSpace, pyIsSpace c = true := by
    intro c hc
    exact hrev c (List.mem_reverse.2 hc)
  intro c hc
  rw [← @List.takeWhile_append_dropWhile Char pyIsSpace s] at hc
  rcases List.mem_append.1 hc with htk | hdr
  · exact List.mem_takeWhile_imp htk
  · exact hdrop c hdr

theorem pyStrip_eq_self {s : List Char}
    (hh : ∀ c t, s = c :: t → pyIsSpace c = false)
    (hl : ∀ c t, s.reverse = c :: t → pyIsSpace c = false) :
    pyStrip s = s := by
  rcases s with _ | ⟨c, t⟩
  · rfl
  · have h1 : List.dropWhile pyIsSpace (c :: t) = c :: t :=
      dropWhile_cons_neg (hh c t rfl)
    unfold pyStrip
    rw [h1]
    rcases e : (c :: t).reverse with _ | ⟨c', t'⟩
    · simp at e
    · rw [dropWhile_cons_neg (hl c' t' e), ← e, List.reverse_reverse]

theorem pyStrip_length_le (s : List Char) : (pyStrip s).length ≤ s.length := by
  unfold pyStrip
  calc ((s.dropWhile pyIsSpace).reverse.dropWhile pyIsSpace).reverse.length
      = ((s.dropWhile pyIsSpace).reverse.dropWhile pyIsSpace).length := by
        rw [List.length_reverse]
    _ ≤ (s.dropWhile pyIsSpace).reverse.length :=
        (List.dropWhile_suffix pyIsSpace).sublist.length_le
    _ = (s.dropWhile pyIsSpace).length := by rw [List.length_reverse]
    _ ≤ s.length := (List.dropWhile_suffix pyIsSpace).sublist.length_le

/-- Splitting consumes a whitespace-free chunk into the accumulator. -/
theorem splitWsAcc_word (w : List Char) (hw : ∀ c ∈ w, pyIsSpace c = false) :
    ∀ (acc cs : List Char),
      splitWsAcc acc (w ++ cs) = splitWsAcc (w.reverse ++ acc) cs := by
  induction w with
  | nil => intro acc cs; simp
  | cons x w' ih =>
    intro acc cs
    have hx : pyIsSpace x = false := hw x (List.mem_cons_self x w')
    have hw' : ∀ c ∈ w', pyIsSpace c = false := fun c hc => hw c (List.mem_cons_of_mem x hc)
    show splitWsAcc acc (x :: (w' ++ cs)) = _
    rw [show splitWsAcc acc (x :: (w' ++ cs)) = splitWsAcc (x :: acc) (w' ++ cs) by
      simp [splitWsAcc, hx]]
    rw [ih hw' (x :: acc) cs]
    simp

/-- Splitting a single-space-joined list of nonempty whitespace-free words
recovers exactly that list: `splitWs` is a left inverse of `joinSp` on
canonical word lists. -/
theorem splitWs_joinSp : ∀ (ws : List (List Char)),
    (∀ w ∈ ws, w ≠ [] ∧ ∀ c ∈ w, pyIsSpace c = false) →
    splitWs (joinSp ws) = ws := by
  intro ws
  induction ws with
  | nil => intro _; rfl
  | cons w tail ih =>
    intro h
    have hw := h w (List.mem_cons_self w tail)
    rcases tail with _ | ⟨w2, t⟩
    · show splitWs w = [w]
      unfold splitWs
      have := splitWsAcc_word w hw.2 [] []
      rw [List.append_nil] at this
      rw [this]
      have : w.reverse ++ [] = w.reverse := List.append_nil _
      rw [this]
      have hne : w.reverse ≠ [] := by
        intro hc; exact hw.1 (by simpa using congrArg List.reverse hc)
      simp [splitWsAcc, hne]
    · show splitWs (w ++ ' ' :: joinSp (w2 :: t)) = w :: w2 :: t
      unfold splitWs
      rw [splitWsAcc_word w hw.2 [] (' ' :: joinSp (w2 :: t))]
      have hne : w.reverse ++ [] ≠ [] := by
        intro hc
        rw [List.append_nil] at hc
        exact hw.1 (by simpa using congrArg List.reverse hc)
      have hsp : pyIsSpace ' ' = true := rfl
      rw [show splitWsAcc (w.reverse ++ []) (' ' :: joinSp (w2 :: t))
          = (w.reverse ++ []).reverse :: splitWsAcc [] (joinSp (w2 :: t)) by
        simp [splitWsAcc, hsp, hne, hw.1]]
      rw [List.append_nil, List.reverse_reverse]
      have ht : ∀ x ∈ w2 :: t, x ≠ [] ∧ ∀ c ∈ x, pyIsSpace c = false :=
        fun x hx => h x (List.mem_cons_of_mem w hx)
      exact congrArg (w :: ·) (ih ht)

/-- Every word produced by `splitWs` is nonempty and whitespace-free. -/
theorem splitWs_words_canonical :
    ∀ (s acc : List Char), (∀ c ∈ acc, pyIsSpace c = false) →
      ∀ w ∈ splitWsAcc acc s, w ≠ [] ∧ ∀ c ∈ w, pyIsSpace c = false := by
  intro s
  induction s with
  | nil =>
    intro acc hacc w hw
    by_cases he : acc = []
    · subst he; simp [splitWsAcc] at hw
    · simp [splitWsAcc, he] at hw
      subst hw
      refine ⟨by simpa using he, ?_⟩
      intro c hc
      exact hacc c (List.mem_reverse.1 hc)
  | cons x cs ih =>
    intro acc hacc w hw
    by_cases hx : pyIsSpace x = true
    · by_cases he : acc = []
      · subst he
        rw [show splitWsAcc [] (x :: cs) = splitWsAcc [] cs by simp [splitWsAcc, hx]] at hw
        exact ih [] (by intro c hc; cases hc) w hw
      · rw [show splitWsAcc acc (x :: cs) = acc.reverse :: splitWsAcc [] cs by
          simp [splitWsAcc, hx, he]] at hw
        rcases List.mem_cons.1 hw with rfl | hmem
        · refine ⟨by simpa using he, ?_⟩
          intro c hc
          exact hacc c (List.mem_reverse.1 hc)
        · exact ih [] (by intro c hc; cases hc) w hmem
    · rw [show splitWsAcc acc (x :: cs) = splitWsAcc (x :: acc) cs by
        simp [splitWsAcc, hx]] at hw
      refine ih (x :: acc) ?_ w hw
      intro c hc
      rcases List.mem_cons.1 hc with rfl | hmem
      · simpa using hx
      · exact hacc c hmem

/-- Characters of the split words come from the split text (or the
accumulator). -/
theorem splitWsAcc_chars :
    ∀ (s acc : List Char), ∀ w ∈ splitWsAcc acc s, ∀ c ∈ w, c ∈ acc ∨ c ∈ s := by
  intro s
  induction s with
  | nil =>
    intro acc w hw c hc
    by_cases he : acc = []
    · subst he; simp [splitWsAcc] at hw
    · simp [splitWsAcc, he] at hw
      subst hw
      exact Or.inl (List.mem_reverse.1 hc)
  | cons x cs ih =>
    intro acc w hw c hc
    by_cases hx : pyIsSpace x = true
    · by_cases he : acc = []
      · subst he
        rw [show splitWsAcc [] (x :: cs) = splitWsAcc [] cs by simp [splitWsAcc, hx]] at hw
        rcases ih [] w hw c hc with h0 | h0
        · cases h0
        · exact Or.inr (List.mem_cons_of_mem x h0)
      · rw [show splitWsAcc acc (x :: cs) = acc.reverse :: splitWsAcc [] cs by
          simp [splitWsAcc, hx, he]] at hw
        rcases List.mem_cons.1 hw with rfl | hmem
        · exact Or.inl (List.mem_reverse.1 hc)
        · rcases ih [] w hmem c hc with h0 | h0
          · cases h0
          · exact Or.inr (List.mem_cons_of_mem x h0)
    · rw [show splitWsAcc acc (x :: cs) = splitWsAcc (x :: acc) cs by
        simp [splitWsAcc, hx]] at hw
      rcases ih (x :: acc) w hw c hc with h0 | h0
      · rcases List.mem_cons.1 h0 with rfl | hmem
        · exact Or.inr (List.mem_cons_self c cs)
        · exact Or.inl hmem
      · exact Or.inr (List.mem_cons_of_mem x h0)

theorem splitWs_chars {s : List Char} {w : List Char} (hw : w ∈ splitWs s)
    {c : Char} (hc : c ∈ w) : c ∈ s := by
  rcases splitWsAcc_chars s [] w hw c hc with h0 | h0
  · cases h0
  · exact h0

/-- A character of a joined word list is a space or one of the words'
characters. -/
theorem mem_joinSp : ∀ (ws : List (List Char)) (c : Char), c ∈ joinSp ws →
    c = ' ' ∨ ∃ w ∈ ws, c ∈ w := by
  intro ws
  induction ws with
  | nil => intro c hc; cases hc
  | cons w tail ih =>
    intro c hc
    rcases tail with _ | ⟨w2, t⟩
    · exact Or.inr ⟨w, List.mem_cons_self w [], hc⟩
    · rcases List.mem_append.1 hc with h0 | h0
      · exact Or.inr ⟨w, List.mem_cons_self w _, h0⟩
      · rcases List.mem_cons.1 h0 with rfl | hmem
        · exact Or.inl rfl
        · rcases ih c hmem with h1 | ⟨w', hw', hcw'⟩
          · exact Or.inl h1
          · exact Or.inr ⟨w', List.mem_cons_of_mem w hw', hcw'⟩

theorem joinSp_ne_nil {w : List Char} (hw : w ≠ []) (l : List (List Char)) :
    joinSp (w :: l) ≠ [] := by
  rcases l with _ | ⟨w2, t⟩
  · exact hw
  · show w ++ ' ' :: joinSp (w2 :: t) ≠ []
    simp

/-- The joined text of a canonical nonempty word list starts with a
non-whitespace character. -/
theorem joinSp_head_nonspace : ∀ (ws : List (List Char)),
    (∀ w ∈ ws, w ≠ [] ∧ ∀ c ∈ w, pyIsSpace c = false) → ws ≠ [] →
    ∃ c t, joinSp ws = c :: t ∧ pyIsSpace c = false := by
  intro ws h hne
  rcases ws with _ | ⟨w, tail⟩
  · exact absurd rfl hne
  · have hw := h w (List.mem_cons_self w tail)
    rcases List.exists_cons_of_ne_nil hw.1 with ⟨x, w', rfl⟩
    have hx : pyIsSpace x = false := hw.2 x (List.mem_cons_self x w')
    rcases tail with _ | ⟨w2, t⟩
    · exact ⟨x, w', rfl, hx⟩
    · exact ⟨x, w' ++ ' ' :: joinSp (w2 :: t), rfl, hx⟩

/-- The joined text of a canonical nonempty word list ends with a
non-whitespace character (stated on the reversed text). -/
theorem joinSp_last_nonspace : ∀ (ws : List (List Char)),
    (∀ w ∈ ws, w ≠ [] ∧ ∀ c ∈ w, pyIsSpace c = false) → ws ≠ [] →
    ∃ c t, (joinSp ws).reverse = c :: t ∧ pyIsSpace c = false := by
  intro ws
  induction ws with
  | nil => intro _ hne; exact absurd rfl hne
  | cons w tail ih =>
    intro h _
    have hw := h w (List.mem_cons_self w tail)
    rcases tail with _ | ⟨w2, t⟩
    · show ∃ c t', w.reverse = c :: t' ∧ pyIsSpace c = false
      have hne : w.reverse ≠ [] := by
        intro hc; exact hw.1 (by simpa using congrArg List.reverse hc)
      rcases List.exists_cons_of_ne_nil hne with ⟨c, t', he⟩
      refine ⟨c, t', he, ?_⟩
      have : c ∈ w.reverse := by rw [he]; exact List.mem_cons_self c t'
      exact hw.2 c (List.mem_reverse.1 this)
    · have ht : ∀ x ∈ w2 :: t, x ≠ [] ∧ ∀ c ∈ x, pyIsSpace c = false :=
        fun x hx => h x (List.mem_cons_of_mem w hx)
      rcases ih ht (by simp) with ⟨c, t', he, hc⟩
      refine ⟨c, t' ++ ' ' :: w.reverse, ?_, hc⟩
      show (w ++ ' ' :: joinSp (w2 :: t)).reverse = _
      rw [List.reverse_append, List.reverse_cons, he]
      simp

/-- Stripping the joined text of a canonical word list is a no-op. -/
theorem pyStrip_joinSp (ws : List (List Char))
    (h : ∀ w ∈ ws, w ≠ [] ∧ ∀ c ∈ w, pyIsSpace c = false) :
    pyStrip (joinSp ws) = joinSp ws := by
  rcases ws with _ | ⟨w, tail⟩
  · rfl
  · refine pyStrip_eq_self ?_ ?_
    · intro c t he
      rcases joinSp_head_nonspace (w :: tail) h (by simp) with ⟨c', t', he', hc'⟩
      rw [he] at he'
      cases he'
      exact hc'
    · intro c t he
      rcases joinSp_last_nonspace (w :: tail) h (by simp) with ⟨c', t', he', hc'⟩
      rw [he] at he'
      cases he'
      exact hc'

/-! ## Lowercasing lemmas -/

theorem lowerChar_space (c : Char) : pyIsSpace (lowerChar c) = pyIsSpace c := by
  unfold lowerChar
  split <;> rfl

theorem lowerL_ne_nil {w : List Char} (hw : w ≠ []) : lowerL w ≠ [] := by
  simpa [lowerL] using hw

theorem lowerL_spacefree {w : List Char} (hw : ∀ c ∈ w, pyIsSpace c = false) :
    ∀ c ∈ lowerL w, pyIsSpace c = false := by
  intro c hc
  rcases List.mem_map.1 hc with ⟨c', hc', rfl⟩
  rw [lowerChar_space]
  exact hw c' hc'

theorem lowerL_joinSp : ∀ (l : List (List Char)),
    lowerL (joinSp l) = joinSp (l.map lowerL) := by
  intro l
  induction l with
  | nil => rfl
  | cons w tail ih =>
    rcases tail with _ | ⟨w2, t⟩
    · rfl
    · show lowerL (w ++ ' ' :: joinSp (w2 :: t))
        = lowerL w ++ ' ' :: joinSp ((w2 :: t).map lowerL)
      rw [show lowerL (w ++ ' ' :: joinSp (w2 :: t))
          = lowerL w ++ lowerChar ' ' :: lowerL (joinSp (w2 :: t)) by
        simp [lowerL]]
      rw [ih]
      rfl

/-- Case-insensitive equality of space-joined word lists forces the word
lists to agree, word by word (for whitespace-free, nonempty words):
obtained by splitting both sides back into words. -/
theorem lowerL_joinSp_inj {l1 l2 : List (List Char)}
    (h1 : ∀ w ∈ l1, w ≠ [] ∧ ∀ c ∈ w, pyIsSpace c = false)
    (h2 : ∀ w ∈ l2, w ≠ [] ∧ ∀ c ∈ w, pyIsSpace c = false)
    (he : lowerL (joinSp l1) = lowerL (joinSp l2)) :
    l1.map lowerL = l2.map lowerL := by
  rw [lowerL_joinSp, lowerL_joinSp] at he
  have c1 : ∀ w ∈ l1.map lowerL, w ≠ [] ∧ ∀ c ∈ w, pyIsSpace c = false := by
    intro w hw
    rcases List.mem_map.1 hw with ⟨w', hw', rfl⟩
    exact ⟨lowerL_ne_nil (h1 w' hw').1, lowerL_spacefree (h1 w' hw').2⟩
  have c2 : ∀ w ∈ l2.map lowerL, w ≠ [] ∧ ∀ c ∈ w, pyIsSpace c = false := by
    intro w hw
    rcases List.mem_map.1 hw with ⟨w', hw', rfl⟩
    exact ⟨lowerL_ne_nil (h2 w' hw').1, lowerL_spacefree (h2 w' hw').2⟩
  have := congrArg splitWs he
  rwa [splitWs_joinSp _ c1, splitWs_joinSp _ c2] at this

/-! ## Lemmas about the numeric-run regex -/

theorem matchUnit_none_of_head {c : Char} {rest : List Char}
    (hc : pyIsDigit c = false) : matchUnit (c :: rest) = none := by
  unfold matchUnit
  rw [List.takeWhile_cons_of_neg (by simpa using hc)]
  rfl

theorem chainRest_zero {cs : List Char} (h : matchUnit cs = none) :
    ∀ g, chainRest g cs = (0, cs) := by
  intro g
  cases g with
  | zero => rfl
  | succ g' => simp [chainRest, h]

theorem subNumRuns_id : ∀ (cs : List Char), (∀ c ∈ cs, pyIsDigit c = false) →
    ∀ f, subNumRuns f cs = cs := by
  intro cs
  induction cs with
  | nil => intro _ f; cases f <;> rfl
  | cons c rest ih =>
    intro h f
    cases f with
    | zero => rfl
    | succ f' =>
      have hc : pyIsDigit c = false := h c (List.mem_cons_self c rest)
      have hmu : matchUnit (c :: rest) = none := matchUnit_none_of_head hc
      show subNumRuns (f' + 1) (c :: rest) = c :: rest
      rw [show subNumRuns (f' + 1) (c :: rest) = c :: subNumRuns f' rest by
        simp [subNumRuns, chainRest_zero hmu]]
      exact congrArg _ (ih (fun x hx => h x (List.mem_cons_of_mem c hx)) f')

theorem matchUnit_isSuffix {cs rest : List Char}
    (h : matchUnit cs = some rest) : rest.IsSuffix cs := by
  unfold matchUnit at h
  by_cases hds : cs.takeWhile pyIsDigit = []
  · rw [if_pos hds] at h; cases h
  · rw [if_neg hds] at h
    split at h
    · rename_i r heq
      have hrest : rest = r.dropWhile pyIsSpace := by
        simpa using h.symm
      have hr2 : r.IsSuffix cs := by
        have ht : (cs.drop (cs.takeWhile pyIsDigit).length).tail
            = cs.drop ((cs.takeWhile pyIsDigit).length + 1) := by
          rw [List.tail_drop]
        rw [heq] at ht
        simp only [List.tail_cons] at ht
        rw [ht]
        exact List.drop_suffix _ _
      rw [hrest]
      exact (List.dropWhile_suffix pyIsSpace).trans hr2
    · cases h

theorem chainRest_isSuffix : ∀ (g : Nat) (cs : List Char),
    (chainRest g cs).2.IsSuffix cs := by
  intro g
  induction g with
  | zero => intro cs; exact List.suffix_refl cs
  | succ g' ih =>
    intro cs
    rcases e : matchUnit cs with _ | rest
    · simp [chainRest, e]
    · rw [show chainRest (g' + 1) cs
        = ((chainRest g' rest).1 + 1, (chainRest g' rest).2) by simp [chainRest, e]]
      exact (ih rest).trans (matchUnit_isSuffix e)

theorem subNumRuns_sublist : ∀ (f : Nat) (cs : List Char),
    (subNumRuns f cs).Sublist cs := by
  intro f
  induction f with
  | zero => intro cs; exact List.Sublist.refl cs
  | succ f' ih =>
    intro cs
    rcases cs with _ | ⟨c, rest⟩
    · exact List.Sublist.refl []
    · show (if (chainRest (c :: rest).length (c :: rest)).1 ≥ 10
          then subNumRuns f' (chainRest (c :: rest).length (c :: rest)).2
          else c :: subNumRuns f' rest).Sublist (c :: rest)
      by_cases hp : (chainRest (c :: rest).length (c :: rest)).1 ≥ 10
      · rw [if_pos hp]
        exact (ih _).trans (chainRest_isSuffix _ _).sublist
      · rw [if_neg hp]
        exact (ih rest).cons₂ c

/-! ## Word-count lemmas -/

theorem wcAux_flag_le : ∀ (cs : List Char),
    wcAux true cs ≤ wcAux false cs ∧ wcAux false cs ≤ wcAux true cs + 1 := by
  intro cs
  induction cs with
  | nil => exact ⟨le_refl 0, by simp [wcAux]⟩
  | cons c cs ih =>
    by_cases hc : pyIsSpace c = true
    · simp [wcAux, hc]
    · have h1 : wcAux true (c :: cs) = wcAux true cs := by simp [wcAux, hc]
      have h2 : wcAux false (c :: cs) = 1 + wcAux true cs := by simp [wcAux, hc]
      omega

theorem wcAux_sublist {s t : List Char} (h : s.Sublist t) :
    ∀ b, wcAux b s ≤ wcAux b t := by
  induction h with
  | slnil => intro b; exact le_refl _
  | @cons l1 l2 c _ ih =>
    intro b
    refine (ih b).trans ?_
    have h2 := wcAux_flag_le l2
    by_cases hc : pyIsSpace c = true
    · rw [show wcAux b (c :: l2) = wcAux false l2 by simp [wcAux, hc]]
      cases b
      · exact le_refl _
      · exact h2.1
    · rw [show wcAux b (c :: l2) = (if b then 0 else 1) + wcAux true l2 by
        simp [wcAux, hc]]
      cases b <;> simp <;> omega
  | @cons₂ l1 l2 c _ ih =>
    intro b
    by_cases hc : pyIsSpace c = true
    · rw [show wcAux b (c :: l1) = wcAux false l1 by simp [wcAux, hc],
        show wcAux b (c :: l2) = wcAux false l2 by simp [wcAux, hc]]
      exact ih false
    · rw [show wcAux b (c :: l1) = (if b then 0 else 1) + wcAux true l1 by
        simp [wcAux, hc],
        show wcAux b (c :: l2) = (if b then 0 else 1) + wcAux true l2 by
        simp [wcAux, hc]]
      exact Nat.add_le_add_left (ih true) _

theorem wcAux_all_space {cs : List Char} (h : ∀ c ∈ cs, pyIsSpace c = true) :
    ∀ b, wcAux b cs = 0 := by
  induction cs with
  | nil => intro b; rfl
  | cons c cs ih =>
    intro b
    have hc : pyIsSpace c = true := h c (List.mem_cons_self c cs)
    rw [show wcAux b (c :: cs) = wcAux false cs by simp [wcAux, hc]]
    exact ih (fun x hx => h x (List.mem_cons_of_mem c hx)) false

theorem splitWsAcc_length : ∀ (s acc : List Char),
    (splitWsAcc acc s).length
      = if acc = [] then wcAux false s else wcAux true s + 1 := by
  intro s
  induction s with
  | nil =>
    intro acc
    by_cases he : acc = []
    · simp [splitWsAcc, he, wcAux]
    · simp [splitWsAcc, he, wcAux]
  | cons x cs ih =>
    intro acc
    by_cases hx : pyIsSpace x = true
    · by_cases he : acc = []
      · rw [show splitWsAcc acc (x :: cs) = splitWsAcc [] cs by
          simp [splitWsAcc, hx, he]]
        rw [ih []]
        simp [he, wcAux, hx]
      · rw [show splitWsAcc acc (x :: cs) = acc.reverse :: splitWsAcc [] cs by
          simp [splitWsAcc, hx, he]]
        rw [List.length_cons, ih []]
        simp [he, wcAux, hx] <;> omega
    · rw [show splitWsAcc acc (x :: cs) = splitWsAcc (x :: acc) cs by
        simp [splitWsAcc, hx]]
      rw [ih (x :: acc)]
      by_cases he : acc = []
      · simp [he, wcAux, hx] <;> omega
      · simp [he, wcAux, hx] <;> omega

theorem splitWs_length_wc (s : List Char) :
    (splitWs s).length = wcAux false s := by
  have := splitWsAcc_length s []
  simpa [splitWs] using this

theorem space_not_digit {c : Char} (h : pyIsSpace c = true) :
    pyIsDigit c = false := by
  have h' := h
  simp only [pyIsSpace, Bool.or_eq_true, decide_eq_true_eq] at h'
  rcases h' with ((((rfl | rfl) | rfl) | rfl) | rfl) | rfl <;> decide

theorem splitWs_all_space {cs : List Char}
    (h : ∀ c ∈ cs, pyIsSpace c = true) : splitWs cs = [] := by
  have := splitWs_length_wc cs
  rw [wcAux_all_space h false] at this
  exact List.length_eq_zero.1 this

/-! ## Claim C4 -/

/-- C4: for every input of at most 20 whitespace-split words, the sanitizer
performs no phrase-repetition collapse: its output is exactly the input
passed through the numeric-run strip, the single-space rejoin of the split
words, the length truncation, and the final trim. -/
theorem C4_small_word_count_no_collapse (cs : List Char)
    (h : (splitWs cs).length ≤ 20) :
    clean_transcription_text cs
      = pyStrip (truncateStep (joinSp (splitWs (subNumRuns (cs.length + 1) cs)))) := by
  unfold clean_transcription_text
  by_cases h0 : pyStrip cs = []
  · rw [if_pos h0]
    have hall : ∀ c ∈ cs, pyIsSpace c = true := all_space_of_pyStrip_nil h0
    have hnd : ∀ c ∈ cs, pyIsDigit c = false :=
      fun c hc => space_not_digit (hall c hc)
    rw [subNumRuns_id cs hnd, splitWs_all_space hall]
    rfl
  · rw [if_neg h0]
    unfold cleanedPre cleanWordsStage
    have hle : (splitWs (subNumRuns (cs.length + 1) cs)).length ≤ 20 := by
      rw [splitWs_length_wc]
      calc wcAux false (subNumRuns (cs.length + 1) cs)
          ≤ wcAux false cs := wcAux_sublist (subNumRuns_sublist _ cs) false
        _ = (splitWs cs).length := (splitWs_length_wc cs).symm
        _ ≤ 20 := h
    rw [if_neg (by omega)]

/-- C4 witness: a 4-word, 22-character phrase repeated 5 consecutive times
with no surrounding words — exactly 20 words — is left uncollapsed. -/
theorem C4_small_word_count_no_collapse_witness :
    clean_transcription_text csC3 = csC3 :=
  (C4_small_word_count_no_collapse csC3 (by decide)).trans (by decide)

/-! ## Scan-loop lemmas -/

theorem repsAfter_stopNZ {f : Nat} {p : List Char} {L : Nat}
    {ws : List (List Char)} {pos : Nat} (hf : f ≠ 0)
    (h : ¬(pos + L ≤ ws.length ∧ lowerL p = lowerL (joinSp ((ws.drop pos).take L)))) :
    repsAfter f p L ws pos = 0 := by
  cases f with
  | zero => exact absurd rfl hf
  | succ f' => simp only [repsAfter, if_neg h]

theorem repsAfter_stepNZ {f : Nat} {p : List Char} {L : Nat}
    {ws : List (List Char)} {pos : Nat} (hf : f ≠ 0)
    (h1 : pos + L ≤ ws.length)
    (h2 : lowerL p = lowerL (joinSp ((ws.drop pos).take L))) :
    repsAfter f p L ws pos = 1 + repsAfter (f - 1) p L ws (pos + L) := by
  cases f with
  | zero => exact absurd rfl hf
  | succ f' => simp only [repsAfter, if_pos (And.intro h1 h2), Nat.succ_sub_one]

/-- When no position below `k` passes both the 10-character gate and the
more-than-3-repetitions test, one scan pass leaves the word list alone. -/
theorem scanAux_id {L : Nat} {ws : List (List Char)} {k : Nat}
    (h : ∀ i, i < k →
      (joinSp ((ws.drop i).take L) ≠ [] ∧
        10 < (pyStrip (joinSp ((ws.drop i).take L))).length) →
      1 + repsAfter (ws.length + 1) (joinSp ((ws.drop i).take L)) L ws (i + L) ≤ 3) :
    ∀ (f i : Nat), scanAux f L ws k i = ws := by
  intro f
  induction f with
  | zero => intro i; rfl
  | succ f' ih =>
    intro i
    show scanAux (f' + 1) L ws k i = ws
    unfold scanAux
    by_cases hik : i < k
    · rw [if_pos hik]
      by_cases hg : joinSp ((ws.drop i).take L) ≠ [] ∧
          10 < (pyStrip (joinSp ((ws.drop i).take L))).length
      · rw [if_pos hg, if_neg (by have := h i hik hg; omega)]
        exact ih (i + 1)
      · rw [if_neg hg]
        exact ih (i + 1)
    · rw [if_neg hik]

/-- A scan pass that finds an eligible repetition at position `i` splices
the word list there and stops. -/
theorem scanAux_hitNZ {f L : Nat} {ws : List (List Char)} {k i : Nat}
    (hf : f ≠ 0) (hik : i < k)
    (hg : joinSp ((ws.drop i).take L) ≠ [] ∧
      10 < (pyStrip (joinSp ((ws.drop i).take L))).length)
    (hr : 3 < 1 + repsAfter (ws.length + 1) (joinSp ((ws.drop i).take L)) L ws (i + L)) :
    scanAux f L ws k i
      = ws.take (i + L) ++
        ws.drop (i + (1 + repsAfter (ws.length + 1) (joinSp ((ws.drop i).take L)) L ws (i + L)) * L) := by
  cases f with
  | zero => exact absurd rfl hf
  | succ f' =>
    unfold scanAux
    rw [if_pos hik, if_pos hg, if_pos hr]

/-! ## Claim C2 -/

/-- C2 counterexample: the sanitizer is not idempotent.  On a 998-character
word, a space, and a 10-character word, the first application truncates to
1001 characters (the 998-character word plus the marker), and the second
application truncates again, producing a different string. -/
theorem C2_counterexample_not_idempotent :
    clean_transcription_text (clean_transcription_text csC2)
        ≠ clean_transcription_text csC2 ∧
      clean_transcription_text csC2 = List.replicate 998 'a' ++ dots := by
  exact ⟨by decide, by decide⟩

/-- C2 amended: the sanitizer is idempotent on digit-free inputs of at most
20 whitespace-split words whose single-space rejoin does not exceed the
1000-character cap.  (In general idempotence fails: truncation output can
exceed the cap and be truncated differently by a second pass, and a second
pass can collapse repetitions the first pass left behind.) -/
theorem C2_amended_idempotent_restricted (cs : List Char)
    (h1 : ∀ c ∈ cs, pyIsDigit c = false)
    (h2 : (splitWs cs).length ≤ 20)
    (h3 : (joinSp (splitWs cs)).length ≤ 1000) :
    clean_transcription_text (clean_transcription_text cs)
      = clean_transcription_text cs := by
  have hcanon : ∀ w ∈ splitWs cs, w ≠ [] ∧ ∀ c ∈ w, pyIsSpace c = false :=
    fun w hw => splitWs_words_canonical cs [] (by intro c hc; cases hc) w hw
  have hsub : subNumRuns (cs.length + 1) cs = cs := subNumRuns_id cs h1 _
  by_cases h0 : pyStrip cs = []
  · have e1 : clean_transcription_text cs = [] := by
      unfold clean_transcription_text
      rw [if_pos h0]
    rw [e1]
    rfl
  · have e1 : clean_transcription_text cs = joinSp (splitWs cs) := by
      unfold clean_transcription_text cleanedPre cleanWordsStage
      rw [if_neg h0, hsub, if_neg (by omega)]
      unfold truncateStep
      rw [if_neg (by omega)]
      exact pyStrip_joinSp _ hcanon
    rw [e1]
    rcases hws : splitWs cs with _ | ⟨w, tail⟩
    · rfl
    · rw [← hws]
      have hjne : joinSp (splitWs cs) ≠ [] := by
        rw [hws]
        exact joinSp_ne_nil (hcanon w (hws ▸ List.mem_cons_self w tail)).1 tail
      have hstr : pyStrip (joinSp (splitWs cs)) = joinSp (splitWs cs) :=
        pyStrip_joinSp _ hcanon
      have hnd2 : ∀ c ∈ joinSp (splitWs cs), pyIsDigit c = false := by
        intro c hc
        rcases mem_joinSp _ c hc with rfl | ⟨w', hw', hcw'⟩
        · decide
        · exact h1 c (splitWs_chars hw' hcw')
      unfold clean_transcription_text cleanedPre cleanWordsStage
      rw [if_neg (by rw [hstr]; exact hjne)]
      rw [subNumRuns_id _ hnd2, splitWs_joinSp _ hcanon, if_neg (by omega)]
      unfold truncateStep
      rw [if_neg (by omega)]
      exact hstr

/-- C2 witness for the amended idempotence. -/
theorem C2_amended_idempotent_restricted_witness :
    clean_transcription_text (clean_transcription_text "hello world".toList)
      = clean_transcription_text "hello world".toList :=
  C2_amended_idempotent_restricted "hello world".toList (by decide) (by decide) (by decide)

/-! ## Claim C3 -/

/-- C3 counterexample: a 4-word phrase of 22 characters repeated 5
consecutive times — on its own, 20 words exactly — is NOT collapsed to one
occurrence: the `len(words) > 20` gate skips the whole scan, the output
equals the input, and the second occurrence is still present at word
position 4. -/
theorem C3_counterexample_twenty_words :
    (pyStrip (joinSp phrC3)).length > 10 ∧
      splitWs csC3 = phrC3 ++ phrC3 ++ phrC3 ++ phrC3 ++ phrC3 ∧
      clean_transcription_text csC3 = csC3 ∧
      ((splitWs (clean_transcription_text csC3)).drop 4).take 4 = phrC3 := by
  exact ⟨by decide, by decide, by decide, by decide⟩

/-! ## Claim C5 -/

/-- C5 counterexample: a phrase under 10 characters (`"ab"`, and likewise
`"ab ab ab"`) repeated exactly 5 consecutive times (word positions 6-10)
is NOT left untouched: a longer overlapping 6-word window of 19 characters
repeats 4 times and its collapse deletes those occurrences — 20 copies of
`"ab"` in the input become 5 in the output. -/
theorem C5_counterexample_short_phrase_deleted :
    ((splitWs csC5).drop 5).take 7
        = ["zzzz".toList, "ab".toList, "ab".toList, "ab".toList, "ab".toList,
            "ab".toList, "zzzz".toList] ∧
      clean_transcription_text csC5 = pC5 ∧
      (splitWs csC5).count "ab".toList = 20 ∧
      (splitWs (clean_transcription_text csC5)).count "ab".toList = 5 := by
  exact ⟨by decide, by decide, by decide, by decide⟩

/-- C5 amended: a phrase whose joined text is at most 10 characters never
itself triggers a deletion.  Whenever no 3-to-7-word window longer than 10
characters repeats more than 3 consecutive times (the only things the scan
ever deletes), the sanitizer deletes nothing at all: its output is the
input passed through the numeric strip, rejoin, truncation and trim —
short-phrase repetitions such as 21 copies of a one-letter word survive
unchanged. -/
theorem C5_amended_short_phrase_exemption (cs : List Char)
    (h : ∀ L, L < 8 → 3 ≤ L →
      ∀ i, i < (splitWs (subNumRuns (cs.length + 1) cs)).length →
      (joinSp (((splitWs (subNumRuns (cs.length + 1) cs)).drop i).take L) ≠ [] ∧
        10 < (pyStrip (joinSp (((splitWs (subNumRuns (cs.length + 1) cs)).drop i).take L))).length) →
      1 + repsAfter ((splitWs (subNumRuns (cs.length + 1) cs)).length + 1)
          (joinSp (((splitWs (subNumRuns (cs.length + 1) cs)).drop i).take L)) L
          (splitWs (subNumRuns (cs.length + 1) cs)) (i + L) ≤ 3) :
    clean_transcription_text cs
      = pyStrip (truncateStep (joinSp (splitWs (subNumRuns (cs.length + 1) cs)))) := by
  unfold clean_transcription_text
  by_cases h0 : pyStrip cs = []
  · rw [if_pos h0]
    have hall : ∀ c ∈ cs, pyIsSpace c = true := all_space_of_pyStrip_nil h0
    have hnd : ∀ c ∈ cs, pyIsDigit c = false :=
      fun c hc => space_not_digit (hall c hc)
    rw [subNumRuns_id cs hnd, splitWs_all_space hall]
    rfl
  · rw [if_neg h0]
    unfold cleanedPre cleanWordsStage
    by_cases hgate : (splitWs (subNumRuns (cs.length + 1) cs)).length > 20
    · rw [if_pos hgate]
      have hpass : ∀ L, L < 8 → 3 ≤ L →
          collapseOnce L (splitWs (subNumRuns (cs.length + 1) cs))
            = splitWs (subNumRuns (cs.length + 1) cs) := by
        intro L hL8 hL3
        unfold collapseOnce
        refine scanAux_id ?_ _ 0
        intro i hik hg
        exact h L hL8 hL3 i (lt_of_lt_of_le hik (Nat.sub_le _ _)) hg
      unfold collapseAll
      rw [hpass 3 (by omega) (by omega), hpass 4 (by omega) (by omega),
        hpass 5 (by omega) (by omega), hpass 6 (by omega) (by omega),
        hpass 7 (by omega) (by omega)]
    · rw [if_neg hgate]

/-- C5 witness for the amended exemption: 21 copies of the one-character
word `"a"` (every eligible window repeats at most 3 times) come out
unchanged. -/
theorem C5_amended_short_phrase_exemption_witness :
    clean_transcription_text csC5w = csC5w :=
  (C5_amended_short_phrase_exemption csC5w (by decide)).trans (by decide)

/-! ## Claim C6 -/

/-- C6 counterexample: an input that IS a sequence of ten comma-separated
numeric tokens (nine commas — no comma after the tenth token) is not
removed at all: the regex unit requires every token, including the last,
to be followed by a comma, so only nine units match and the threshold of
ten is not reached.  The output still contains the whole sequence. -/
theorem C6_counterexample_ten_tokens_survive :
    clean_transcription_text csC6 = csC6 ∧
      ∃ l r, clean_transcription_text csC6 = l ++ csC6 ++ r := by
  refine ⟨by decide, [], [], ?_⟩
  decide

theorem digit_not_space {c : Char} (h : pyIsDigit c = true) :
    pyIsSpace c = false := by
  simp only [pyIsSpace, Bool.or_eq_false_iff, decide_eq_false_iff_not]
  refine ⟨⟨⟨⟨⟨?_, ?_⟩, ?_⟩, ?_⟩, ?_⟩, ?_⟩ <;> rintro rfl <;> exact absurd h (by decide)

theorem takeWhile_digit_run : ∀ (t z : List Char), (∀ c ∈ t, pyIsDigit c = true) →
    (t ++ ',' :: z).takeWhile pyIsDigit = t := by
  intro t
  induction t with
  | nil =>
    intro z _
    exact List.takeWhile_cons_of_neg (by decide)
  | cons x t' ih =>
    intro z h
    rw [List.cons_append,
      List.takeWhile_cons_of_pos (by simpa using h x (List.mem_cons_self x t'))]
    exact congrArg _ (ih z (fun c hc => h c (List.mem_cons_of_mem x hc)))

theorem unitsCat_cons (t : List Char) (ts : List (List Char)) :
    unitsCat (t :: ts) = t ++ ',' :: unitsCat ts := by
  simp [unitsCat]

/-- Matching one regex unit against a digit run, its comma, and a remainder
that does not start with whitespace. -/
theorem matchUnit_unit {t z : List Char}
    (ht : t ≠ []) (hd : ∀ c ∈ t, pyIsDigit c = true)
    (hz : ∀ c r, z = c :: r → pyIsSpace c = false) :
    matchUnit (t ++ ',' :: z) = some z := by
  unfold matchUnit
  rw [takeWhile_digit_run t z hd, if_neg ht, List.drop_left]
  show some (z.dropWhile pyIsSpace) = some z
  congr 1
  rcases z with _ | ⟨c, r⟩
  · rfl
  · exact dropWhile_cons_neg (hz c r rfl)

theorem unitsCat_append_head {ts : List (List Char)} {w : List Char}
    (hts : ∀ t ∈ ts, t ≠ [] ∧ ∀ c ∈ t, pyIsDigit c = true)
    (hw : ∀ c r, w = c :: r → pyIsSpace c = false) :
    ∀ c r, unitsCat ts ++ w = c :: r → pyIsSpace c = false := by
  intro c r he
  rcases ts with _ | ⟨t, ts'⟩
  · exact hw c r (by simpa [unitsCat] using he)
  · rcases hts t (List.mem_cons_self t ts') with ⟨htne, htd⟩
    rcases List.exists_cons_of_ne_nil htne with ⟨x, t', rfl⟩
    rw [unitsCat_cons] at he
    simp only [List.cons_append] at he
    injection he with h1 h2
    rw [← h1]
    exact digit_not_space (htd x (List.mem_cons_self x t'))

/-- The greedy unit chain on a run of comma-terminated digit tokens
followed by a non-unit remainder counts exactly the tokens. -/
theorem chainRest_unitsCat : ∀ (ts : List (List Char)) (g : Nat) (w : List Char),
    ts.length ≤ g →
    (∀ t ∈ ts, t ≠ [] ∧ ∀ c ∈ t, pyIsDigit c = true) →
    (∀ c r, w = c :: r → pyIsSpace c = false ∧ pyIsDigit c = false) →
    chainRest g (unitsCat ts ++ w) = (ts.length, w) := by
  intro ts
  induction ts with
  | nil =>
    intro g w _ _ hw
    rw [show unitsCat [] ++ w = w by simp [unitsCat]]
    have hmu : matchUnit w = none := by
      rcases w with _ | ⟨c, r⟩
      · rfl
      · exact matchUnit_none_of_head (hw c r rfl).2
    rw [chainRest_zero hmu g]
    rfl
  | cons t ts' ih =>
    intro g w hg hts hw
    cases g with
    | zero => exact absurd hg (by simp)
    | succ g' =>
      rcases hts t (List.mem_cons_self t ts') with ⟨htne, htd⟩
      have hts' : ∀ x ∈ ts', x ≠ [] ∧ ∀ c ∈ x, pyIsDigit c = true :=
        fun x hx => hts x (List.mem_cons_of_mem t hx)
      have hmu : matchUnit (unitsCat (t :: ts') ++ w) = some (unitsCat ts' ++ w) := by
        rw [unitsCat_cons, List.append_assoc, List.cons_append]
        exact matchUnit_unit htne htd
          (unitsCat_append_head hts' (fun c r he => (hw c r he).1))
      rw [show chainRest (g' + 1) (unitsCat (t :: ts') ++ w)
          = ((chainRest g' (unitsCat ts' ++ w)).1 + 1,
              (chainRest g' (unitsCat ts' ++ w)).2) by simp [chainRest, hmu]]
      rw [ih g' w (by simpa using hg) hts' hw]
      rfl

theorem length_le_unitsCat : ∀ (ts : List (List Char)),
    ts.length ≤ (unitsCat ts).length := by
  intro ts
  induction ts with
  | nil => simp [unitsCat]
  | cons t ts' ih =>
    rw [unitsCat_cons]
    simp only [List.length_cons, List.length_append, List.length_cons]
    omega

theorem subNumRuns_delete {cs : List Char} {f : Nat} (hf : f ≠ 0) (hne : cs ≠ [])
    (hch : (chainRest cs.length cs).1 ≥ 10) :
    subNumRuns f cs = subNumRuns (f - 1) (chainRest cs.length cs).2 := by
  cases f with
  | zero => exact absurd rfl hf
  | succ f' =>
    rcases cs with _ | ⟨c, rest⟩
    · exact absurd rfl hne
    · show subNumRuns (f' + 1) (c :: rest) = _
      simp only [subNumRuns, Nat.succ_sub_one]
      rw [if_pos hch]

/-- C6 amended: what the numeric-run strip actually removes is a run of
ten or more comma-TERMINATED numeric tokens — each token, the last one
included, followed by a comma.  Such a run followed by a non-numeric,
whitespace-free word is deleted in full, leaving just the word.  (Ten
comma-separated tokens without a trailing comma after the last contain
only nine such units and are left in place — the counterexample.) -/
theorem C6_amended_comma_terminated_run_removed
    (ts : List (List Char)) (w : List Char)
    (hts : 10 ≤ ts.length)
    (htok : ∀ t ∈ ts, t ≠ [] ∧ ∀ c ∈ t, pyIsDigit c = true)
    (hwne : w ≠ [])
    (hwc : ∀ c ∈ w, pyIsDigit c = false ∧ pyIsSpace c = false)
    (hwlen : w.length ≤ 1000) :
    clean_transcription_text (unitsCat ts ++ w) = w := by
  have hwhead : ∀ c r, w = c :: r → pyIsSpace c = false ∧ pyIsDigit c = false := by
    intro c r he
    have hc : c ∈ w := by rw [he]; exact List.mem_cons_self c r
    exact ⟨(hwc c hc).2, (hwc c hc).1⟩
  have hglen : ts.length ≤ (unitsCat ts ++ w).length := by
    have h1 := length_le_unitsCat ts
    simp only [List.length_append]
    omega
  have hchain : chainRest (unitsCat ts ++ w).length (unitsCat ts ++ w)
      = (ts.length, w) :=
    chainRest_unitsCat ts _ w hglen htok hwhead
  have hne : unitsCat ts ++ w ≠ [] := by
    intro he
    rcases List.append_eq_nil.1 he with ⟨-, h2⟩
    exact hwne h2
  have hsub : subNumRuns ((unitsCat ts ++ w).length + 1) (unitsCat ts ++ w) = w := by
    rw [subNumRuns_delete (by omega) hne (by rw [hchain]; simpa using hts), hchain]
    exact subNumRuns_id w (fun c hc => (hwc c hc).1) _
  have hstrne : pyStrip (unitsCat ts ++ w) ≠ [] := by
    intro hcontra
    have hall := all_space_of_pyStrip_nil hcontra
    rcases ts with _ | ⟨t1, ts'⟩
    · simp at hts
    · rcases htok t1 (List.mem_cons_self t1 ts') with ⟨ht1ne, ht1d⟩
      rcases List.exists_cons_of_ne_nil ht1ne with ⟨x, t1', rfl⟩
      have hx : x ∈ unitsCat ((x :: t1') :: ts') ++ w := by
        rw [unitsCat_cons]
        simp
      have h1 : pyIsSpace x = false :=
        digit_not_space (ht1d x (List.mem_cons_self x t1'))
      rw [hall x hx] at h1
      cases h1
  have hwcanon : ∀ u ∈ [w], u ≠ [] ∧ ∀ c ∈ u, pyIsSpace c = false := by
    intro u hu
    rw [List.mem_singleton] at hu
    subst hu
    exact ⟨hwne, fun c hc => (hwc c hc).2⟩
  have hsplitw : splitWs w = [w] := by
    have h1 := splitWs_joinSp [w] hwcanon
    simpa [joinSp] using h1
  unfold clean_transcription_text cleanedPre cleanWordsStage
  rw [if_neg hstrne, hsub, hsplitw, if_neg (by simp)]
  show pyStrip (truncateStep (joinSp [w])) = w
  rw [show joinSp [w] = w from rfl]
  unfold truncateStep
  rw [if_neg (by omega)]
  have h1 := pyStrip_joinSp [w] hwcanon
  simpa [joinSp] using h1

/-- C6 witness for the amended removal: ten comma-terminated tokens
followed by a word are stripped down to the word. -/
theorem C6_amended_comma_terminated_run_removed_witness :
    clean_transcription_text
        (unitsCat ["1".toList, "2".toList, "3".toList, "4".toList, "5".toList,
            "6".toList, "7".toList, "8".toList, "9".toList, "10".toList]
          ++ "ok".toList)
      = "ok".toList :=
  C6_amended_comma_terminated_run_removed _ _ (by decide) (by decide) (by decide)
    (by decide) (by decide)

/-! ## Truncation-boundary lemmas -/

theorem cutAfterSpaceRev_eq_none : ∀ {r : List Char}, ' ' ∉ r →
    cutAfterSpaceRev r = none := by
  intro r
  induction r with
  | nil => intro _; rfl
  | cons c cs ih =>
    intro h
    have hc : ¬c = ' ' := fun he => h (he ▸ List.mem_cons_self c cs)
    rw [show cutAfterSpaceRev (c :: cs) = cutAfterSpaceRev cs by
      simp [cutAfterSpaceRev, hc]]
    exact ih (fun hm => h (List.mem_cons_of_mem c hm))

theorem mem_of_cutAfterSpaceRev_none : ∀ {r : List Char},
    cutAfterSpaceRev r = none → ' ' ∉ r := by
  intro r
  induction r with
  | nil => intro _ h; cases h
  | cons c cs ih =>
    intro h hm
    by_cases hc : c = ' '
    · subst hc
      rw [show cutAfterSpaceRev (' ' :: cs) = some cs by simp [cutAfterSpaceRev]] at h
      cases h
    · rw [show cutAfterSpaceRev (c :: cs) = cutAfterSpaceRev cs by
        simp [cutAfterSpaceRev, hc]] at h
      rcases List.mem_cons.1 hm with he | hm2
      · exact hc he.symm
      · exact ih h hm2

theorem cutAfterSpaceRev_spec : ∀ {r v : List Char}, cutAfterSpaceRev r = some v →
    ∃ u, r = u ++ ' ' :: v ∧ ' ' ∉ u := by
  intro r
  induction r with
  | nil => intro v h; cases h
  | cons c cs ih =>
    intro v h
    by_cases hc : c = ' '
    · subst hc
      rw [show cutAfterSpaceRev (' ' :: cs) = some cs by simp [cutAfterSpaceRev]] at h
      injection h with h1
      subst h1
      exact ⟨[], rfl, by simp⟩
    · rw [show cutAfterSpaceRev (c :: cs) = cutAfterSpaceRev cs by
        simp [cutAfterSpaceRev, hc]] at h
      rcases ih h with ⟨u, hru, hu⟩
      refine ⟨c :: u, by rw [List.cons_append, hru], ?_⟩
      intro hm
      rcases List.mem_cons.1 hm with he | hm2
      · exact hc he.symm
      · exact hu hm2

theorem beforeLastSpace_of_no_space {s : List Char} (h : ' ' ∉ s) :
    beforeLastSpace s = s := by
  unfold beforeLastSpace
  rw [cutAfterSpaceRev_eq_none (by simpa using h)]

/-- Decomposition at the last space: the text before it, the space, and a
space-free remainder. -/
theorem beforeLastSpace_spec {s : List Char} (h : ' ' ∈ s) :
    ∃ q, s = beforeLastSpace s ++ ' ' :: q ∧ ' ' ∉ q := by
  rcases e : cutAfterSpaceRev s.reverse with _ | v
  · exact absurd (List.mem_reverse.2 h) (mem_of_cutAfterSpaceRev_none e)
  · rcases cutAfterSpaceRev_spec e with ⟨u, hru, hu⟩
    have hs : s = v.reverse ++ ' ' :: u.reverse := by
      have h1 := congrArg List.reverse hru
      rw [List.reverse_reverse] at h1
      rw [h1, List.reverse_append, List.reverse_cons, List.append_assoc]
      rfl
    have hbls : beforeLastSpace s = v.reverse := by
      unfold beforeLastSpace
      rw [e]
    refine ⟨u.reverse, ?_, fun hm => hu (List.mem_reverse.1 hm)⟩
    rw [hbls]
    exact hs

theorem beforeLastSpace_length_le (s : List Char) :
    (beforeLastSpace s).length ≤ s.length := by
  by_cases h : ' ' ∈ s
  · rcases beforeLastSpace_spec h with ⟨q, he, -⟩
    have h1 := congrArg List.length he
    simp only [List.length_append, List.length_cons] at h1
    omega
  · rw [beforeLastSpace_of_no_space h]

/-- The collapse scan only ever keeps words of the list it was given. -/
theorem scanAux_mem : ∀ (f L : Nat) (ws : List (List Char)) (k i : Nat),
    ∀ w ∈ scanAux f L ws k i, w ∈ ws := by
  intro f
  induction f with
  | zero => intro L ws k i w hw; exact hw
  | succ f' ih =>
    intro L ws k i w hw
    unfold scanAux at hw
    by_cases hik : i < k
    · rw [if_pos hik] at hw
      by_cases hg : joinSp ((ws.drop i).take L) ≠ [] ∧
          10 < (pyStrip (joinSp ((ws.drop i).take L))).length
      · rw [if_pos hg] at hw
        by_cases hr : 3 < 1 + repsAfter (ws.length + 1)
            (joinSp ((ws.drop i).take L)) L ws (i + L)
        · rw [if_pos hr] at hw
          rcases List.mem_append.1 hw with h0 | h0
          · exact (List.take_sublist _ _).subset h0
          · exact (List.drop_sublist _ _).subset h0
        · rw [if_neg hr] at hw
          exact ih _ _ _ _ w hw
      · rw [if_neg hg] at hw
        exact ih _ _ _ _ w hw
    · rw [if_neg hik] at hw
      exact hw

/-- Every word surviving to the rejoin stage is nonempty and
whitespace-free. -/
theorem cleanWordsStage_canonical (cs : List Char) :
    ∀ w ∈ cleanWordsStage cs, w ≠ [] ∧ ∀ c ∈ w, pyIsSpace c = false := by
  intro w hw
  have base : ∀ u ∈ splitWs (subNumRuns (cs.length + 1) cs),
      u ≠ [] ∧ ∀ c ∈ u, pyIsSpace c = false :=
    fun u hu => splitWs_words_canonical _ [] (by intro c hc; cases hc) u hu
  unfold cleanWordsStage at hw
  by_cases hg : (splitWs (subNumRuns (cs.length + 1) cs)).length > 20
  · rw [if_pos hg] at hw
    unfold collapseAll collapseOnce at hw
    have h7 := scanAux_mem _ _ _ _ _ w hw
    have h6 := scanAux_mem _ _ _ _ _ w h7
    have h5 := scanAux_mem _ _ _ _ _ w h6
    have h4 := scanAux_mem _ _ _ _ _ w h5
    have h3 := scanAux_mem _ _ _ _ _ w h4
    exact base w h3
  · rw [if_neg hg] at hw
    exact base w hw

/-- Stripping a word-boundary chunk followed by the ellipsis marker is a
no-op (the chunk never starts with whitespace, the marker never ends with
one). -/
theorem pyStrip_append_dots {p : List Char}
    (hp : ∀ c r, p = c :: r → pyIsSpace c = false) :
    pyStrip (p ++ dots) = p ++ dots := by
  refine pyStrip_eq_self ?_ ?_
  · intro c r he
    rcases p with _ | ⟨pc, pr⟩
    · rw [show ([] : List Char) ++ dots = '.' :: ['.', '.'] from rfl] at he
      injection he with h1 h2
      rw [← h1]
      decide
    · rw [List.cons_append] at he
      injection he with h1 h2
      rw [← h1]
      exact hp pc pr rfl
  · intro c r he
    rw [List.reverse_append, show dots.reverse = '.' :: ['.', '.'] from rfl,
      List.cons_append] at he
    injection he with h1 h2
    rw [← h1]
    decide

/-! ## Claim C7 -/

/-- C7 counterexample: a single 1012-character word is truncated mid-word —
the first 1000 characters contain no space, `rsplit` returns them whole,
and the output is not "some whole words of the cleaned text plus the
marker" for any number of words. -/
theorem C7_counterexample_mid_word_truncation :
    1000 < (cleanedPre csC7).length ∧
      clean_transcription_text csC7 = List.replicate 1000 'a' ++ dots ∧
      ¬ ∃ k, clean_transcription_text csC7
          = joinSp ((splitWs (cleanedPre csC7)).take k) ++ dots := by
  refine ⟨by decide, by decide, ?_⟩
  rintro ⟨k, hk⟩
  have h1 : splitWs (cleanedPre csC7) = [csC7] := by decide
  have h2 : clean_transcription_text csC7 = List.replicate 1000 'a' ++ dots := by
    decide
  rw [h1, h2] at hk
  have hlen := congrArg List.length hk
  rcases k with _ | k
  · rw [List.take_zero] at hlen
    simp [dots, joinSp] at hlen
  · rw [show ([csC7] : List (List Char)).take (k + 1) = [csC7] by
      simp [List.take_succ_cons]] at hlen
    simp [dots, joinSp, csC7] at hlen

/-- C7 amended: the sanitizer's output never exceeds the 1000-character
cap plus the 3-character marker; whenever the cleaned text exceeds the cap
the output is a chunk of it followed by the ellipsis marker; and whenever
the first 1000 characters of the cleaned text contain a space the chunk
ends at a whole-word boundary — it is followed by a space in the cleaned
text.  (Without such a space — one huge word — the cut is mid-word, as the
counterexample shows.) -/
theorem C7_amended_length_cap (cs : List Char) :
    (clean_transcription_text cs).length ≤ 1000 + dots.length ∧
      (1000 < (cleanedPre cs).length →
        (∃ p, clean_transcription_text cs = p ++ dots ∧ p.length ≤ 1000) ∧
        (' ' ∈ (cleanedPre cs).take 1000 →
          ∃ p q, clean_transcription_text cs = p ++ dots ∧
            cleanedPre cs = p ++ ' ' :: q)) := by
  by_cases h0 : pyStrip cs = []
  · have e1 : clean_transcription_text cs = [] := by
      unfold clean_transcription_text
      rw [if_pos h0]
    have e2 : cleanedPre cs = [] := by
      unfold cleanedPre cleanWordsStage
      have hall := all_space_of_pyStrip_nil h0
      rw [subNumRuns_id cs (fun c hc => space_not_digit (hall c hc)),
        splitWs_all_space hall]
      rfl
    rw [e1, e2]
    exact ⟨by simp [dots], by intro h; simp at h⟩
  · have hcanon := cleanWordsStage_canonical cs
    have e1 : clean_transcription_text cs = pyStrip (truncateStep (cleanedPre cs)) := by
      unfold clean_transcription_text
      rw [if_neg h0]
    by_cases ht : 1000 < (cleanedPre cs).length
    · have e2 : truncateStep (cleanedPre cs)
          = beforeLastSpace ((cleanedPre cs).take 1000) ++ dots := by
        unfold truncateStep
        rw [if_pos ht]
      have hwsne : cleanWordsStage cs ≠ [] := by
        intro he
        have : cleanedPre cs = [] := by unfold cleanedPre; rw [he]; rfl
        rw [this] at ht
        simp at ht
      rcases joinSp_head_nonspace (cleanWordsStage cs) hcanon hwsne with
        ⟨c0, t0, he0, hc0⟩
      have he0' : cleanedPre cs = c0 :: t0 := he0
      have htake : (cleanedPre cs).take 1000 = c0 :: t0.take 999 := by
        rw [he0', show (1000 : Nat) = 999 + 1 from rfl, List.take_succ_cons]
      have hpfx : ∃ rest, (cleanedPre cs).take 1000
          = beforeLastSpace ((cleanedPre cs).take 1000) ++ rest := by
        by_cases hsp : ' ' ∈ (cleanedPre cs).take 1000
        · rcases beforeLastSpace_spec hsp with ⟨q, hq, -⟩
          exact ⟨' ' :: q, hq⟩
        · exact ⟨[], by rw [beforeLastSpace_of_no_space hsp, List.append_nil]⟩
      have hp0head : ∀ c r,
          beforeLastSpace ((cleanedPre cs).take 1000) = c :: r →
          pyIsSpace c = false := by
        intro c r he
        rcases hpfx with ⟨rest, hrest⟩
        rw [he, List.cons_append, htake] at hrest
        injection hrest with h1 h2
        rw [← h1]
        exact hc0
      have hclean : clean_transcription_text cs
          = beforeLastSpace ((cleanedPre cs).take 1000) ++ dots := by
        rw [e1, e2]
        exact pyStrip_append_dots hp0head
      have hp0len : (beforeLastSpace ((cleanedPre cs).take 1000)).length ≤ 1000 := by
        have h1 := beforeLastSpace_length_le ((cleanedPre cs).take 1000)
        have h2 : ((cleanedPre cs).take 1000).length ≤ 1000 := by
          simp [List.length_take]
        omega
      refine ⟨?_, fun _ => ⟨⟨_, hclean, hp0len⟩, ?_⟩⟩
      · rw [hclean]
        simp only [List.length_append]
        simp [dots]
        omega
      · intro hsp
        rcases beforeLastSpace_spec hsp with ⟨q, hq, -⟩
        refine ⟨_, q ++ (cleanedPre cs).drop 1000, hclean, ?_⟩
        conv_lhs => rw [← List.take_append_drop 1000 (cleanedPre cs), hq]
        rw [List.append_assoc, List.cons_append]
    · have e2 : truncateStep (cleanedPre cs) = cleanedPre cs := by
        unfold truncateStep
        rw [if_neg (by omega)]
      have e3 : pyStrip (cleanedPre cs) = cleanedPre cs := pyStrip_joinSp _ hcanon
      rw [e1, e2, e3]
      refine ⟨by simp [dots]; omega, fun hcontra => absurd hcontra ht⟩

/-- C7 witness: a 1201-character two-word cleaned text is truncated at the
word boundary before the space. -/
theorem C7_amended_length_cap_witness :
    ∃ p q, clean_transcription_text csC7w = p ++ dots ∧
      cleanedPre csC7w = p ++ ' ' :: q :=
  ((C7_amended_length_cap csC7w).2 (by decide)).2 (by decide)

/-! ## Symbolic evaluation lemmas for the C3 collapse -/

/-- Case-insensitively distinct first words make two 3-word windows
case-insensitively distinct. -/
theorem lower_join3_ne {u1 u2 u3 v1 v2 v3 : List Char}
    (hu1 : u1 ≠ [] ∧ ∀ x ∈ u1, pyIsSpace x = false)
    (hu2 : u2 ≠ [] ∧ ∀ x ∈ u2, pyIsSpace x = false)
    (hu3 : u3 ≠ [] ∧ ∀ x ∈ u3, pyIsSpace x = false)
    (hv1 : v1 ≠ [] ∧ ∀ x ∈ v1, pyIsSpace x = false)
    (hv2 : v2 ≠ [] ∧ ∀ x ∈ v2, pyIsSpace x = false)
    (hv3 : v3 ≠ [] ∧ ∀ x ∈ v3, pyIsSpace x = false)
    (hne : lowerL u1 ≠ lowerL v1) :
    lowerL (joinSp [u1, u2, u3]) ≠ lowerL (joinSp [v1, v2, v3]) := by
  intro he
  have h1 := @lowerL_joinSp_inj [u1, u2, u3] [v1, v2, v3]
    (by
      intro w hw
      simp only [List.mem_cons, List.not_mem_nil, or_false] at hw
      rcases hw with rfl | rfl | rfl
      exacts [hu1, hu2, hu3])
    (by
      intro w hw
      simp only [List.mem_cons, List.not_mem_nil, or_false] at hw
      rcases hw with rfl | rfl | rfl
      exacts [hv1, hv2, hv3])
    he
  simp only [List.map] at h1
  injection h1 with h2 h3
  exact hne h2

/-- The word-list computation at the heart of the amended C3: a 4-word
phrase of case-insensitively distinct words, longer than 10 characters,
repeated 5 consecutive times and followed by a 21st word, is collapsed by
the scan to a single occurrence (the pass for phrase length 3 finds
nothing, the pass for phrase length 4 counts 5 repetitions at position 0
and splices, the remaining passes have nothing left to scan). -/
theorem collapseAll_five_reps (a b c d e : List Char)
    (hA : a ≠ [] ∧ ∀ x ∈ a, pyIsSpace x = false)
    (hB : b ≠ [] ∧ ∀ x ∈ b, pyIsSpace x = false)
    (hC : c ≠ [] ∧ ∀ x ∈ c, pyIsSpace x = false)
    (hD : d ≠ [] ∧ ∀ x ∈ d, pyIsSpace x = false)
    (hab : lowerL a ≠ lowerL b) (hbc : lowerL b ≠ lowerL c)
    (hcd : lowerL c ≠ lowerL d) (had : lowerL a ≠ lowerL d)
    (hlen : 10 < (joinSp [a, b, c, d]).length) :
    collapseAll [a, b, c, d, a, b, c, d, a, b, c, d, a, b, c, d, a, b, c, d, e]
      = [a, b, c, d, e] := by
  have h21 : ([a, b, c, d, a, b, c, d, a, b, c, d, a, b, c, d, a, b, c, d, e]
      : List (List Char)).length = 21 := rfl
  have h4canon : ∀ w ∈ ([a, b, c, d] : List (List Char)),
      w ≠ [] ∧ ∀ x ∈ w, pyIsSpace x = false := by
    intro w hw
    simp only [List.mem_cons, List.not_mem_nil, or_false] at hw
    rcases hw with rfl | rfl | rfl | rfl
    exacts [hA, hB, hC, hD]
  have e3 : collapseOnce 3
      [a, b, c, d, a, b, c, d, a, b, c, d, a, b, c, d, a, b, c, d, e]
      = [a, b, c, d, a, b, c, d, a, b, c, d, a, b, c, d, a, b, c, d, e] := by
    unfold collapseOnce
    refine scanAux_id ?_ _ 0
    intro i hik _
    rw [show ([a, b, c, d, a, b, c, d, a, b, c, d, a, b, c, d, a, b, c, d, e]
        : List (List Char)).length - 3 * 3 = 12 from rfl] at hik
    interval_cases i
    · rw [repsAfter_stopNZ (Nat.succ_ne_zero _)
        (by rintro ⟨-, heq⟩; exact lower_join3_ne hA hB hC hD hA hB had heq)]
      omega
    · rw [repsAfter_stopNZ (Nat.succ_ne_zero _)
        (by rintro ⟨-, heq⟩; exact lower_join3_ne hB hC hD hA hB hC (Ne.symm hab) heq)]
      omega
    · rw [repsAfter_stopNZ (Nat.succ_ne_zero _)
        (by rintro ⟨-, heq⟩; exact lower_join3_ne hC hD hA hB hC hD (Ne.symm hbc) heq)]
      omega
    · rw [repsAfter_stopNZ (Nat.succ_ne_zero _)
        (by rintro ⟨-, heq⟩; exact lower_join3_ne hD hA hB hC hD hA (Ne.symm hcd) heq)]
      omega
    · rw [repsAfter_stopNZ (Nat.succ_ne_zero _)
        (by rintro ⟨-, heq⟩; exact lower_join3_ne hA hB hC hD hA hB had heq)]
      omega
    · rw [repsAfter_stopNZ (Nat.succ_ne_zero _)
        (by rintro ⟨-, heq⟩; exact lower_join3_ne hB hC hD hA hB hC (Ne.symm hab) heq)]
      omega
    · rw [repsAfter_stopNZ (Nat.succ_ne_zero _)
        (by rintro ⟨-, heq⟩; exact lower_join3_ne hC hD hA hB hC hD (Ne.symm hbc) heq)]
      omega
    · rw [repsAfter_stopNZ (Nat.succ_ne_zero _)
        (by rintro ⟨-, heq⟩; exact lower_join3_ne hD hA hB hC hD hA (Ne.symm hcd) heq)]
      omega
    · rw [repsAfter_stopNZ (Nat.succ_ne_zero _)
        (by rintro ⟨-, heq⟩; exact lower_join3_ne hA hB hC hD hA hB had heq)]
      omega
    · rw [repsAfter_stopNZ (Nat.succ_ne_zero _)
        (by rintro ⟨-, heq⟩; exact lower_join3_ne hB hC hD hA hB hC (Ne.symm hab) heq)]
      omega
    · rw [repsAfter_stopNZ (Nat.succ_ne_zero _)
        (by rintro ⟨-, heq⟩; exact lower_join3_ne hC hD hA hB hC hD (Ne.symm hbc) heq)]
      omega
    · rw [repsAfter_stopNZ (Nat.succ_ne_zero _)
        (by rintro ⟨-, heq⟩; exact lower_join3_ne hD hA hB hC hD hA (Ne.symm hcd) heq)]
      omega
  have hreps4 : repsAfter
      (([a, b, c, d, a, b, c, d, a, b, c, d, a, b, c, d, a, b, c, d, e]
        : List (List Char)).length + 1)
      (joinSp ((([a, b, c, d, a, b, c, d, a, b, c, d, a, b, c, d, a, b, c, d, e]
        : List (List Char)).drop 0).take 4)) 4
      [a, b, c, d, a, b, c, d, a, b, c, d, a, b, c, d, a, b, c, d, e] (0 + 4)
      = 4 := by
    have s1 : repsAfter
        (([a, b, c, d, a, b, c, d, a, b, c, d, a, b, c, d, a, b, c, d, e]
          : List (List Char)).length + 1)
        (joinSp ((([a, b, c, d, a, b, c, d, a, b, c, d, a, b, c, d, a, b, c, d, e]
          : List (List Char)).drop 0).take 4)) 4
        [a, b, c, d, a, b, c, d, a, b, c, d, a, b, c, d, a, b, c, d, e] (0 + 4)
        = 1 + repsAfter
        (([a, b, c, d, a, b, c, d, a, b, c, d, a, b, c, d, a, b, c, d, e]
          : List (List Char)).length + 1 - 1)
        (joinSp ((([a, b, c, d, a, b, c, d, a, b, c, d, a, b, c, d, a, b, c, d, e]
          : List (List Char)).drop 0).take 4)) 4
        [a, b, c, d, a, b, c, d, a, b, c, d, a, b, c, d, a, b, c, d, e] (0 + 4 + 4) :=
      repsAfter_stepNZ (by rw [h21]; omega) (by rw [h21]; omega) rfl
    have s2 : repsAfter
        (([a, b, c, d, a, b, c, d, a, b, c, d, a, b, c, d, a, b, c, d, e]
          : List (List Char)).length + 1 - 1)
        (joinSp ((([a, b, c, d, a, b, c, d, a, b, c, d, a, b, c, d, a, b, c, d, e]
          : List (List Char)).drop 0).take 4)) 4
        [a, b, c, d, a, b, c, d, a, b, c, d, a, b, c, d, a, b, c, d, e] (0 + 4 + 4)
        = 1 + repsAfter
        (([a, b, c, d, a, b, c, d, a, b, c, d, a, b, c, d, a, b, c, d, e]
          : List (List Char)).length + 1 - 1 - 1)
        (joinSp ((([a, b, c, d, a, b, c, d, a, b, c, d, a, b, c, d, a, b, c, d, e]
          : List (List Char)).drop 0).take 4)) 4
        [a, b, c, d, a, b, c, d, a, b, c, d, a, b, c, d, a, b, c, d, e] (0 + 4 + 4 + 4) :=
      repsAfter_stepNZ (by rw [h21]; omega) (by rw [h21]; omega) rfl
    have s3 : repsAfter
        (([a, b, c, d, a, b, c, d, a, b, c, d, a, b, c, d, a, b, c, d, e]
          : List (List Char)).length + 1 - 1 - 1)
        (joinSp ((([a, b, c, d, a, b, c, d, a, b, c, d, a, b, c, d, a, b, c, d, e]
          : List (List Char)).drop 0).take 4)) 4
        [a, b, c, d, a, b, c, d, a, b, c, d, a, b, c, d, a, b, c, d, e] (0 + 4 + 4 + 4)
        = 1 + repsAfter
        (([a, b, c, d, a, b, c, d, a, b, c, d, a, b, c, d, a, b, c, d, e]
          : List (List Char)).length + 1 - 1 - 1 - 1)
        (joinSp ((([a, b, c, d, a, b, c, d, a, b, c, d, a, b, c, d, a, b, c, d, e]
          : List (List Char)).drop 0).take 4)) 4
        [a, b, c, d, a, b, c, d, a, b, c, d, a, b, c, d, a, b, c, d, e]
        (0 + 4 + 4 + 4 + 4) :=
      repsAfter_stepNZ (by rw [h21]; omega) (by rw [h21]; omega) rfl
    have s4 : repsAfter
        (([a, b, c, d, a, b, c, d, a, b, c, d, a, b, c, d, a, b, c, d, e]
          : List (List Char)).length + 1 - 1 - 1 - 1)
        (joinSp ((([a, b, c, d, a, b, c, d, a, b, c, d, a, b, c, d, a, b, c, d, e]
          : List (List Char)).drop 0).take 4)) 4
        [a, b, c, d, a, b, c, d, a, b, c, d, a, b, c, d, a, b, c, d, e]
        (0 + 4 + 4 + 4 + 4)
        = 1 + repsAfter
        (([a, b, c, d, a, b, c, d, a, b, c, d, a, b, c, d, a, b, c, d, e]
          : List (List Char)).length + 1 - 1 - 1 - 1 - 1)
        (joinSp ((([a, b, c, d, a, b, c, d, a, b, c, d, a, b, c, d, a, b, c, d, e]
          : List (List Char)).drop 0).take 4)) 4
        [a, b, c, d, a, b, c, d, a, b, c, d, a, b, c, d, a, b, c, d, e]
        (0 + 4 + 4 + 4 + 4 + 4) :=
      repsAfter_stepNZ (by rw [h21]; omega) (by rw [h21]; omega) rfl
    have s5 : repsAfter
        (([a, b, c, d, a, b, c, d, a, b, c, d, a, b, c, d, a, b, c, d, e]
          : List (List Char)).length + 1 - 1 - 1 - 1 - 1)
        (joinSp ((([a, b, c, d, a, b, c, d, a, b, c, d, a, b, c, d, a, b, c, d, e]
          : List (List Char)).drop 0).take 4)) 4
        [a, b, c, d, a, b, c, d, a, b, c, d, a, b, c, d, a, b, c, d, e]
        (0 + 4 + 4 + 4 + 4 + 4) = 0 :=
      repsAfter_stopNZ (by rw [h21]; omega)
        (by rintro ⟨hle, -⟩; rw [h21] at hle; omega)
    rw [s1, s2, s3, s4, s5]
  have hhit : scanAux
      (([a, b, c, d, a, b, c, d, a, b, c, d, a, b, c, d, a, b, c, d, e]
        : List (List Char)).length + 1) 4
      [a, b, c, d, a, b, c, d, a, b, c, d, a, b, c, d, a, b, c, d, e]
      (([a, b, c, d, a, b, c, d, a, b, c, d, a, b, c, d, a, b, c, d, e]
        : List (List Char)).length - 3 * 4) 0
      = ([a, b, c, d, a, b, c, d, a, b, c, d, a, b, c, d, a, b, c, d, e]
          : List (List Char)).take (0 + 4) ++
        ([a, b, c, d, a, b, c, d, a, b, c, d, a, b, c, d, a, b, c, d, e]
          : List (List Char)).drop
          (0 + (1 + repsAfter
            (([a, b, c, d, a, b, c, d, a, b, c, d, a, b, c, d, a, b, c, d, e]
              : List (List Char)).length + 1)
            (joinSp ((([a, b, c, d, a, b, c, d, a, b, c, d, a, b, c, d,
              a, b, c, d, e] : List (List Char)).drop 0).take 4)) 4
            [a, b, c, d, a, b, c, d, a, b, c, d, a, b, c, d, a, b, c, d, e]
            (0 + 4)) * 4) :=
    scanAux_hitNZ (by rw [h21]; omega)
      (by rw [show ([a, b, c, d, a, b, c, d, a, b, c, d, a, b, c, d, a, b, c, d, e]
          : List (List Char)).length - 3 * 4 = 9 from rfl]; omega)
      ⟨joinSp_ne_nil hA.1 _, by
        rw [show joinSp ((([a, b, c, d, a, b, c, d, a, b, c, d, a, b, c, d,
            a, b, c, d, e] : List (List Char)).drop 0).take 4)
            = joinSp [a, b, c, d] from rfl, pyStrip_joinSp _ h4canon]
        exact hlen⟩
      (by rw [hreps4]; omega)
  have e4 : collapseOnce 4
      [a, b, c, d, a, b, c, d, a, b, c, d, a, b, c, d, a, b, c, d, e]
      = [a, b, c, d, e] := by
    unfold collapseOnce
    rw [hhit, hreps4]
    rfl
  have e5 : collapseOnce 5 ([a, b, c, d, e] : List (List Char)) = [a, b, c, d, e] := by
    unfold collapseOnce
    refine scanAux_id ?_ _ 0
    intro i hik _
    rw [show ([a, b, c, d, e] : List (List Char)).length - 3 * 5 = 0 from rfl] at hik
    exact absurd hik (Nat.not_lt_zero i)
  have e6 : collapseOnce 6 ([a, b, c, d, e] : List (List Char)) = [a, b, c, d, e] := by
    unfold collapseOnce
    refine scanAux_id ?_ _ 0
    intro i hik _
    rw [show ([a, b, c, d, e] : List (List Char)).length - 3 * 6 = 0 from rfl] at hik
    exact absurd hik (Nat.not_lt_zero i)
  have e7 : collapseOnce 7 ([a, b, c, d, e] : List (List Char)) = [a, b, c, d, e] := by
    unfold collapseOnce
    refine scanAux_id ?_ _ 0
    intro i hik _
    rw [show ([a, b, c, d, e] : List (List Char)).length - 3 * 7 = 0 from rfl] at hik
    exact absurd hik (Nat.not_lt_zero i)
  unfold collapseAll
  rw [e3, e4, e5, e6, e7]

/-! ## Claim C3 (amended theorem) -/

/-- C3 amended: the repetition law needs the input to clear the
more-than-20-words gate.  For any 4-word phrase `a b c d` of
case-insensitively distinct, whitespace- and digit-free words with joined
text longer than 10 characters, repeated 5 consecutive times and followed
by one further word `e` (21 words, so the gate passes; total at most the
length cap), the sanitizer output contains exactly one occurrence of the
phrase at that position: it is `a b c d e`.  Without the 21st word the 20
words are left uncollapsed (the counterexample). -/
theorem C3_amended_collapse_needs_gate (a b c d e : List Char)
    (hA : a ≠ [] ∧ ∀ x ∈ a, pyIsSpace x = false)
    (hB : b ≠ [] ∧ ∀ x ∈ b, pyIsSpace x = false)
    (hC : c ≠ [] ∧ ∀ x ∈ c, pyIsSpace x = false)
    (hD : d ≠ [] ∧ ∀ x ∈ d, pyIsSpace x = false)
    (hE : e ≠ [] ∧ ∀ x ∈ e, pyIsSpace x = false)
    (hdA : ∀ x ∈ a, pyIsDigit x = false) (hdB : ∀ x ∈ b, pyIsDigit x = false)
    (hdC : ∀ x ∈ c, pyIsDigit x = false) (hdD : ∀ x ∈ d, pyIsDigit x = false)
    (hdE : ∀ x ∈ e, pyIsDigit x = false)
    (hab : lowerL a ≠ lowerL b) (hbc : lowerL b ≠ lowerL c)
    (hcd : lowerL c ≠ lowerL d) (had : lowerL a ≠ lowerL d)
    (hlen : 10 < (joinSp [a, b, c, d]).length)
    (hcap : (joinSp [a, b, c, d, e]).length ≤ 1000) :
    clean_transcription_text
        (joinSp [a, b, c, d, a, b, c, d, a, b, c, d, a, b, c, d, a, b, c, d, e])
      = joinSp [a, b, c, d, e] := by
  have hmem : ∀ w ∈ ([a, b, c, d, a, b, c, d, a, b, c, d, a, b, c, d,
      a, b, c, d, e] : List (List Char)),
      w ≠ [] ∧ ∀ x ∈ w, pyIsSpace x = false := by
    intro w hw
    simp only [List.mem_cons, List.not_mem_nil, or_false] at hw
    rcases hw with rfl | rfl | rfl | rfl | rfl | rfl | rfl | rfl | rfl | rfl |
      rfl | rfl | rfl | rfl | rfl | rfl | rfl | rfl | rfl | rfl | rfl
    exacts [hA, hB, hC, hD, hA, hB, hC, hD, hA, hB, hC, hD, hA, hB, hC, hD,
      hA, hB, hC, hD, hE]
  have h5mem : ∀ w ∈ ([a, b, c, d, e] : List (List Char)),
      w ≠ [] ∧ ∀ x ∈ w, pyIsSpace x = false := by
    intro w hw
    simp only [List.mem_cons, List.not_mem_nil, or_false] at hw
    rcases hw with rfl | rfl | rfl | rfl | rfl
    exacts [hA, hB, hC, hD, hE]
  have hstrip : pyStrip (joinSp [a, b, c, d, a, b, c, d, a, b, c, d,
      a, b, c, d, a, b, c, d, e])
      = joinSp [a, b, c, d, a, b, c, d, a, b, c, d, a, b, c, d, a, b, c, d, e] :=
    pyStrip_joinSp _ hmem
  have hjne : joinSp ([a, b, c, d, a, b, c, d, a, b, c, d, a, b, c, d,
      a, b, c, d, e] : List (List Char)) ≠ [] :=
    joinSp_ne_nil hA.1 _
  have hnd : ∀ x ∈ joinSp ([a, b, c, d, a, b, c, d, a, b, c, d, a, b, c, d,
      a, b, c, d, e] : List (List Char)), pyIsDigit x = false := by
    intro x hx
    rcases mem_joinSp _ x hx with rfl | ⟨w, hw, hxw⟩
    · decide
    · simp only [List.mem_cons, List.not_mem_nil, or_false] at hw
      rcases hw with rfl | rfl | rfl | rfl | rfl | rfl | rfl | rfl | rfl | rfl |
        rfl | rfl | rfl | rfl | rfl | rfl | rfl | rfl | rfl | rfl | rfl
      exacts [hdA x hxw, hdB x hxw, hdC x hxw, hdD x hxw, hdA x hxw, hdB x hxw,
        hdC x hxw, hdD x hxw, hdA x hxw, hdB x hxw, hdC x hxw, hdD x hxw,
        hdA x hxw, hdB x hxw, hdC x hxw, hdD x hxw, hdA x hxw, hdB x hxw,
        hdC x hxw, hdD x hxw, hdE x hxw]
  unfold clean_transcription_text cleanedPre cleanWordsStage
  rw [if_neg (by rw [hstrip]; exact hjne)]
  rw [subNumRuns_id _ hnd, splitWs_joinSp _ hmem]
  rw [if_pos (by
    rw [show ([a, b, c, d, a, b, c, d, a, b, c, d, a, b, c, d, a, b, c, d, e]
      : List (List Char)).length = 21 from rfl]
    omega)]
  rw [collapseAll_five_reps a b c d e hA hB hC hD hab hbc hcd had hlen]
  unfold truncateStep
  rw [if_neg (by omega)]
  exact pyStrip_joinSp _ h5mem

/-- C3 witness for the amended collapse: the 22-character phrase
`alpha beta gamma delta` repeated 5 times and followed by `omega` is
reduced to a single occurrence of the phrase followed by `omega`. -/
theorem C3_amended_collapse_needs_gate_witness :
    clean_transcription_text
        (joinSp ["alpha".toList, "beta".toList, "gamma".toList, "delta".toList,
          "alpha".toList, "beta".toList, "gamma".toList, "delta".toList,
          "alpha".toList, "beta".toList, "gamma".toList, "delta".toList,
          "alpha".toList, "beta".toList, "gamma".toList, "delta".toList,
          "alpha".toList, "beta".toList, "gamma".toList, "delta".toList,
          "omega".toList])
      = joinSp ["alpha".toList, "beta".toList, "gamma".toList, "delta".toList,
          "omega".toList] :=
  C3_amended_collapse_needs_gate _ _ _ _ _ (by decide) (by decide) (by decide)
    (by decide) (by decide) (by decide) (by decide) (by decide) (by decide)
    (by decide) (by decide) (by decide) (by decide) (by decide) (by decide)
    (by decide)

end WhisperToTalk
